import Mathlib

/-!
# CC-BPlusTree, "Leis OLC" benchmark driver

A shallow embedding of `src/Leis OLC/main.cpp` (the benchmark harness) and, for the
properties of the tree that the harness drives, a sequential model of the B+tree
described in the specification (its header `BTreeOLC.h` is not part of the sources).

Conventions of the embedding
* C++ `int` is `Int` wrapped to 32 bits where the source narrows (`toInt32`, the
  two's complement wrap-around of every mainstream ABI and of C++20);
  `uint64_t` is `Nat` reduced modulo `2^64` (`toUInt64`); `long` is 64 bits (LP64).
* A pointer into the key array is its element offset from `all_data`.
* The environment (clock, outcome of `pthread_create`, the `uint64_t -> double`
  conversion, and the contents of the array that `gen_rand_data` of the missing
  `randGen.h` returns) is an explicit parameter, `World`.
* Behaviour that the C++ standard leaves undefined (division by zero, an index outside
  `threads[128]`, overflow of an `int` counter) is an explicit outcome.
* Workers are modelled one by one, each by the sequence of calls it issues; how the
  calls of different workers interleave is not modelled.  A call of `experiment` waits
  for its workers, so undefined behaviour of a worker (overflow of its counter, a read
  outside the key array) or of workers left behind by an early return is undefined
  behaviour of the process.
-/

set_option maxRecDepth 65536

namespace LeisOLC

/-! ## Machine integers -/

/-- `INT_MAX` of a 32-bit `int`. -/
def INT_MAX : Int := 2147483647

/-- `INT_MIN` of a 32-bit `int`. -/
def INT_MIN : Int := -2147483648

/-- `LONG_MAX` of a 64-bit `long`. -/
def LONG_MAX : Int := 9223372036854775807

/-- `LONG_MIN` of a 64-bit `long`. -/
def LONG_MIN : Int := -9223372036854775808

/-- Conversion of an integer value to `uint64_t`: reduction modulo `2^64`. -/
def toUInt64 (x : Int) : Nat := (x % 18446744073709551616).toNat

/-- Conversion of an integer value to a 32-bit `int`: two's complement wrap-around. -/
def toInt32 (x : Int) : Int := (x + 2147483648) % 4294967296 - 2147483648

/-! ## `std::stol` -/

/-- The exceptions `std::stol` throws. -/
inductive StolError where
  | invalid_argument
  | out_of_range
  deriving DecidableEq, Repr

/-- C `isspace` in the "C" locale: space, and `\t \n \v \f \r`. -/
def isspace (c : Char) : Bool := c.toNat == 32 || (9 ≤ c.toNat && c.toNat ≤ 13)

/-- C `isdigit`. -/
def isdigit (c : Char) : Bool := 48 ≤ c.toNat && c.toNat ≤ 57

/-- Value of a run of decimal digits, most significant first. -/
def digitsValue (ds : List Char) : Nat :=
  ds.foldl (fun acc c => 10 * acc + (c.toNat - 48)) 0

/-- Optional sign in front of the digits: `(negative, rest)`. -/
def takeSign : List Char → Bool × List Char
  | '-' :: rest => (true, rest)
  | '+' :: rest => (false, rest)
  | cs => (false, cs)

/-- `std::stol(str)` with the default base 10 (it is `strtol`): leading white space is
skipped, an optional sign is read, then the longest run of decimal digits; whatever
follows the digits is ignored.  No digit at all throws `std::invalid_argument`, a value
outside `long` throws `std::out_of_range`. -/
def stol (s : String) : Except StolError Int :=
  let signed := takeSign (s.toList.dropWhile isspace)
  let ds := signed.2.takeWhile isdigit
  if ds.isEmpty then .error .invalid_argument
  else
    let v : Int := if signed.1 then -(digitsValue ds : Int) else (digitsValue ds : Int)
    if v < LONG_MIN ∨ LONG_MAX < v then .error .out_of_range else .ok v

/-! ## The environment -/

/-- Everything the harness observes from outside.
* `now cfg k`: the `k`-th reading (0 = start, 1 = end) of `system_clock`, in
  milliseconds, inside the experiment of configuration number `cfg`;
* `spawnOk cfg i`: whether `pthread_create` for worker `i` of configuration `cfg`
  returned 0;
* `mem a`: the key stored at element offset `a` from `all_data`;
* `toDouble`: the conversion `(double) key`. -/
structure World (V : Type) where
  now : Nat → Nat → Int
  spawnOk : Nat → Nat → Bool
  mem : Nat → Nat
  toDouble : Nat → V

/-! ## `thread_s` and `thread_insert` -/

/-- The record `thread_s` (without the thread handle): `n` keys starting at element
offset `data` of the key array, to be inserted in the tree instance `tree`. -/
structure thread_s where
  n : Nat
  data : Nat
  tree : Nat
  deriving DecidableEq, Repr

/-- One call `tree->insert(key, value)`; `index` is the element offset of the key
array that was read for it. -/
structure InsertCall (V : Type) where
  tree : Nat
  index : Nat
  key : Nat
  value : V

/-- How a worker ends: it returns `NULL`, or its `int` counter overflows. -/
inductive WorkerStatus where
  | returned
  | undefined
  deriving DecidableEq, Repr

/-- State of a worker: the key array it reads, the calls issued so far, its status. -/
structure WorkerResult (V : Type) where
  mem : Nat → Nat
  calls : List (InsertCall V)
  status : WorkerStatus

/-- The loop `for(int i = 0; i < thread_data->n; i++) tree->insert(data[i], (double) data[i])`
from counter value `i` on, `remaining` being the number of iterations left before
`i < thread_data->n` fails.  Incrementing `i == INT_MAX` is signed overflow. -/
def insertLoop {V : Type} (W : World V) (td : thread_s) : Nat → Nat → WorkerResult V
  | 0, _ => { mem := W.mem, calls := [], status := .returned }
  | remaining + 1, i =>
    let key := W.mem (td.data + i)
    let call : InsertCall V :=
      { tree := td.tree, index := td.data + i, key := key, value := W.toDouble key }
    if (i : Int) = INT_MAX then
      { mem := W.mem, calls := [call], status := .undefined }
    else
      let r := insertLoop W td remaining (i + 1)
      { mem := r.mem, calls := call :: r.calls, status := r.status }

/-- `thread_insert(ptr)` with `ptr` pointing to the record `td`. -/
def thread_insert {V : Type} (W : World V) (td : thread_s) : WorkerResult V :=
  insertLoop W td td.n 0

/-- Whether the run of the worker with record `td` is defined when `all_data` points to
`size` keys: the worker returns (its counter does not overflow) and every `data[i]` it
reads is one of the `size` keys. -/
def workerDefined {V : Type} (W : World V) (size : Nat) (td : thread_s) : Bool :=
  decide ((thread_insert W td).status = .returned) &&
    (thread_insert W td).calls.all (fun c => decide (c.index < size))

/-! ## `experiment` -/

/-- How `experiment` ends: it reaches its last line after joining workers that all
returned; it returns early because `pthread_create` failed for worker `i`; its own
behaviour is undefined (division, index outside `threads[128]`); or the behaviour of a
worker it waits for is undefined. -/
inductive ExperimentStatus where
  | completed
  | aborted (i : Nat)
  | undefined
  | workerFault
  deriving DecidableEq, Repr

/-- Whether the process is in a defined state when the call is over, so that `main`
goes on with the next configuration: the call completed, or it returned early before any
worker was created.  After an early return with `i ≥ 1` the workers `0 .. i-1` are never
joined and go on reading their records `threads[j]`, which were local to the call that
has returned: from there on the behaviour is undefined. -/
def ExperimentStatus.continues : ExperimentStatus → Bool
  | .completed => true
  | .aborted 0 => true
  | _ => false

/-- What one call of `experiment` did: its arguments, the tree it allocated, the
records `threads[0..]` it filled in (in index order), the number of workers created
and joined, the lines printed, and how it ended. -/
structure ExperimentResult where
  n : Int
  t : Int
  tree : Nat
  threads : List thread_s
  spawned : Nat
  joined : Nat
  output : List String
  status : ExperimentStatus
  deriving DecidableEq, Repr

/-- Result of the spawn loop: records written, workers created, and whether the loop
ran to its end (`none`), or stopped (`some` status). -/
structure SpawnResult where
  threads : List thread_s
  spawned : Nat
  stop : Option ExperimentStatus
  deriving DecidableEq, Repr

/-- The loop `for(int i = 0; i < t; i++) { threads[i] = ...; if (pthread_create(...) != 0) return; }`
from counter value `i` on, `remaining` being the number of iterations left before
`i < t` fails.  `threads` has 128 elements: an index of 128 or more is out of bounds. -/
def spawnLoop {V : Type} (W : World V) (cfg tree relative_n : Nat) : Nat → Nat → SpawnResult
  | 0, _ => { threads := [], spawned := 0, stop := none }
  | remaining + 1, i =>
    if 128 ≤ i then { threads := [], spawned := 0, stop := some .undefined }
    else
      let td : thread_s :=
        { n := relative_n, data := (i * relative_n) % 18446744073709551616, tree := tree }
      if W.spawnOk cfg i then
        let r := spawnLoop W cfg tree relative_n remaining (i + 1)
        { threads := td :: r.threads, spawned := r.spawned + 1, stop := r.stop }
      else
        { threads := [td], spawned := 0, stop := some (.aborted i) }

/-- The line `std::cout << n << "," << t << "," << time.count() << std::endl`. -/
def resultLine (n t ms : Int) : String :=
  toString n ++ "," ++ toString t ++ "," ++ toString ms

/-- `experiment(n, t, all_data)` as the `cfg`-th call of the run; `tree` is the object
returned by `new btreeolc::BTree<uint64_t, double>()` and `size` the number of keys
`all_data` points to.  `n / t` is `int` division (truncating; undefined for `t == 0` and
for `INT_MIN / -1`), converted to `uint64_t`.  The join loop
`for(int i = 0; i < t; i++) pthread_join(threads[i].p_thread, NULL)` waits for every
worker: the call gets to its last line when the run of each worker is defined. -/
def experiment {V : Type} (W : World V) (cfg tree : Nat) (n t : Int) (size : Nat) :
    ExperimentResult :=
  if t = 0 ∨ (n = INT_MIN ∧ t = -1) then
    { n := n, t := t, tree := tree, threads := [], spawned := 0, joined := 0,
      output := [], status := .undefined }
  else
    let relative_n := toUInt64 (Int.tdiv n t)
    let time_start := W.now cfg 0
    let r := spawnLoop W cfg tree relative_n t.toNat 0
    match r.stop with
    | some st =>
      { n := n, t := t, tree := tree, threads := r.threads, spawned := r.spawned,
        joined := 0, output := [], status := st }
    | none =>
      if r.threads.all (workerDefined W size) then
        let time := W.now cfg 1 - time_start
        { n := n, t := t, tree := tree, threads := r.threads, spawned := r.spawned,
          joined := t.toNat, output := [resultLine n t time], status := .completed }
      else
        { n := n, t := t, tree := tree, threads := r.threads, spawned := r.spawned,
          joined := 0, output := [], status := .workerFault }

/-! ## `main` -/

/-- Default record count. -/
def N : Nat := 100000000

/-- Default thread count. -/
def T : Nat := 1

/-- The thread counts of the configurations, `all_t`. -/
def all_t : List Int := [1, 2, 4, 5, 6, 8, 10, 12, 14, 15, 16, 18, 20, 32, 48, 64, 96, 128]

/-- The first lines of `main`: `n` and `t` are `uint64_t`, initialised to `N` and `T`,
and overwritten by `std::stol(argv[1])`, `std::stol(argv[2])` when `argc == 3`
(`argv` includes the program name). -/
def parseArgs (argv : List String) : Except StolError (Nat × Nat) :=
  match argv with
  | [_, a1, a2] =>
    match stol a1 with
    | .error e => .error e
    | .ok v1 =>
      match stol a2 with
      | .error e => .error e
      | .ok v2 => .ok (toUInt64 v1, toUInt64 v2)
  | _ => .ok (N, T)

/-- How the process ends: `main` returns a code, an exception of `std::stol` is not
caught (`std::terminate`), or the behaviour is undefined (a crash is possible). -/
inductive Termination where
  | returned (code : Int)
  | terminated (e : StolError)
  | undefined
  deriving DecidableEq, Repr

/-- The loop `for(int tt : all_t) experiment(n, tt, all_data)` over the configurations
`ts`, the first of them being call number `cfg`; `all_data` points to the `n` keys that
were generated, and the `uint64_t n` of `main` is narrowed to the `int` parameter at each
call.  Nothing is modelled after a call that leaves the process in an undefined state. -/
def runConfigs {V : Type} (W : World V) (n : Nat) : List Int → Nat → List ExperimentResult
  | [], _ => []
  | tt :: ts, cfg =>
    let r := experiment W cfg cfg (toInt32 n) tt n
    if r.status.continues then r :: runConfigs W n ts (cfg + 1) else [r]

/-- A run of the program: the lines on standard output, the argument of
`gen_rand_data` when it was called, the calls of `experiment`, and how it ended. -/
structure MainResult where
  stdout : List String
  generated : Option Nat
  runs : List ExperimentResult
  exit : Termination
  deriving DecidableEq, Repr

/-- `main(argc, argv)`. -/
def main {V : Type} (W : World V) (argv : List String) : MainResult :=
  match parseArgs argv with
  | .error e => { stdout := [], generated := none, runs := [], exit := .terminated e }
  | .ok (n, _t) =>
    let runs := runConfigs W n all_t 0
    { stdout :=
        ["> Generating data, hold on ...", "> Data generation completed",
         "Number of Records,Number of Threads,Time"] ++ runs.flatMap (fun r => r.output),
      generated := some n,
      runs := runs,
      exit := if runs.all (fun r => r.status.continues) then .returned 0 else .undefined }

/-- The workers that were really created by an experiment: the first `spawned` records. -/
def ExperimentResult.workers (r : ExperimentResult) : List thread_s :=
  r.threads.take r.spawned

/-! ## Concrete environments -/

/-- An environment in which every `pthread_create` succeeds; the clock stands still,
the key at offset `a` is `a`, and values are natural numbers. -/
def idealWorld : World Nat :=
  { now := fun _ _ => 0, spawnOk := fun _ _ => true, mem := fun a => a, toDouble := fun k => k }

/-- An environment in which `pthread_create` fails for worker 1 of configuration 2
(the one with thread count 4) and succeeds everywhere else. -/
def flakyWorld : World Nat :=
  { now := fun _ _ => 0, spawnOk := fun cfg i => !(cfg == 2 && i == 1),
    mem := fun a => a, toDouble := fun k => k }

end LeisOLC

/-! # The tree the workers fill

`BTreeOLC.h` (`btreeolc::BTree`) is included by `main.cpp` but is not part of the
sources, so the tree is modelled from the specification (sections 3 and 4): nodes,
leaf and inner operations, lookup and insert with split and root promotion.  The model
is sequential: one call at a time, in the order in which the calls return; versioned
locks and restarts are not modelled.  Leaves at equal depth (invariant (b) of the
specification) are built into the type: a node of height 0 is a leaf, a node of height
`h + 1` is an inner node over nodes of height `h`. -/

namespace btreeolc

/-- Modelled from the spec: `LeafNode` of the missing `BTreeOLC.h`, "ordered sequence of
at most C (key, value) pairs". -/
abbrev LeafNode (K V : Type) : Type := List (K × V)

/-- Modelled from the spec: `LeafNode.lookup(key)` of the missing `BTreeOLC.h`, "returns
matching value or not found", as a scan. -/
def LeafNode.lookup {K V : Type} [LinearOrder K] : LeafNode K V → K → Option V
  | [], _ => none
  | (k', v') :: rest, k => if k' = k then some v' else LeafNode.lookup rest k

/-- Modelled from the spec: `LeafNode.insert(key, value)` of the missing `BTreeOLC.h`, "if
key present, overwrite value; else inserts maintaining sort order".  Whether a split is
required is decided by the caller from the length of the result. -/
def LeafNode.insert {K V : Type} [LinearOrder K] : LeafNode K V → K → V → LeafNode K V
  | [], k, v => [(k, v)]
  | (k', v') :: rest, k, v =>
    if k < k' then (k, v) :: (k', v') :: rest
    else if k = k' then (k, v) :: rest
    else (k', v') :: LeafNode.insert rest k v

/-- Modelled from the spec: `InnerNode` of the missing `BTreeOLC.h`, "ordered sequence of
separator keys with one more owned child reference than keys". -/
structure InnerNode (K α : Type) where
  keys : List K
  children : List α

/-- Modelled from the spec: `InnerNode.findChildIndex(key)` of the missing `BTreeOLC.h`,
"index of the child subtree that must contain key, via search over separator keys":
child `i` holds the keys below separator `i`, so it is the index of the first separator
above the key, or the number of separators. -/
def InnerNode.findChildIndex {K : Type} [LinearOrder K] : List K → K → Nat
  | [], _ => 0
  | s :: rest, k => if k < s then 0 else InnerNode.findChildIndex rest k + 1

/-- Modelled from the spec: `InnerNode.insertSeparator(index, key, child)` of the missing
`BTreeOLC.h`, "inserts a new (separator, child) pair at the given position (used after a
child split)": the separator goes to position `index`, the new sibling right after the
child that was split. -/
def InnerNode.insertSeparator {K α : Type} (nd : InnerNode K α) (index : Nat) (key : K)
    (child : α) : InnerNode K α :=
  { keys := nd.keys.take index ++ key :: nd.keys.drop index,
    children := nd.children.take (index + 1) ++ child :: nd.children.drop (index + 1) }

/-- Modelled from the spec: the polymorphic `Node` of the missing `BTreeOLC.h`, by height. -/
def Node (K V : Type) : Nat → Type
  | 0 => LeafNode K V
  | h + 1 => InnerNode K (Node K V h)

/-- Modelled from the spec: what an insertion hands to the level above in the missing
`BTreeOLC.h`: the node as it is now (it fits), or the retained lower half, the separator
and the new sibling of a split. -/
inductive InsertResult (K α : Type) where
  | fits (node : α)
  | split (lower : α) (sep : K) (upper : α)

/-- Modelled from the spec: `LeafNode.split()` of the missing `BTreeOLC.h`, "partitions
entries into lower half (retained) and upper half (new sibling), returns (newSibling,
separatorKey = first key of upper half)". -/
def LeafNode.split {K V : Type} (es : LeafNode K V) : InsertResult K (LeafNode K V) :=
  match es.drop (es.length / 2) with
  | [] => .fits es
  | (s, v) :: rest => .split (es.take (es.length / 2)) s ((s, v) :: rest)

/-- Modelled from the spec: `InnerNode.split()` of the missing `BTreeOLC.h`, "analogous to
leaf split: returns (newSibling, separatorKey) to propagate one level up"; the middle
separator moves up, so that each half keeps one more child than separators. -/
def InnerNode.split {K α : Type} (nd : InnerNode K α) : InsertResult K (InnerNode K α) :=
  match nd.keys.drop (nd.keys.length / 2) with
  | [] => .fits nd
  | s :: rest =>
    .split { keys := nd.keys.take (nd.keys.length / 2),
             children := nd.children.take (nd.keys.length / 2 + 1) }
           s
           { keys := rest, children := nd.children.drop (nd.keys.length / 2 + 1) }

/-- Modelled from the spec: one step of the descent of `Tree.lookup` in the missing
`BTreeOLC.h`, "compute child index, read child reference", then go on in that child. -/
def InnerNode.route {K V α : Type} [LinearOrder K] (look : α → K → Option V)
    (keys : List K) (children : List α) (k : K) : Option V :=
  match children[InnerNode.findChildIndex keys k]? with
  | some c => look c k
  | none => none

/-- Modelled from the spec: `Tree.lookup(key)` of the missing `BTreeOLC.h` below a node,
descent to the leaf and lookup there. -/
def Node.lookup {K V : Type} [LinearOrder K] : (h : Nat) → Node K V h → K → Option V
  | 0, leaf, k => LeafNode.lookup leaf k
  | h + 1, nd, k =>
    InnerNode.route (Node.lookup h) (InnerNode.keys nd) (InnerNode.children nd) k

/-- Modelled from the spec: `Tree.insert(key, value)` of the missing `BTreeOLC.h` below a
node, for capacity `C`: descend to the leaf and insert there; a node that would hold more
than `C` entries is split and "the nearest ancestor receives the new separator via
insertSeparator; if that ancestor itself overflows, repeat the split-and-propagate one
level further up".  No node with more than `C` entries is ever stored, and with
capacity 4 the first split happens at the fifth insert, as in the specification. -/
def Node.insert {K V : Type} [LinearOrder K] (C : Nat) :
    (h : Nat) → Node K V h → K → V → InsertResult K (Node K V h)
  | 0, leaf, k, v =>
    let leaf' := LeafNode.insert leaf k v
    if leaf'.length ≤ C then .fits leaf' else LeafNode.split leaf'
  | h + 1, nd, k, v =>
    let i := InnerNode.findChildIndex (InnerNode.keys nd) k
    match (InnerNode.children nd)[i]? with
    | none => .fits nd
    | some c =>
      match Node.insert C h c k v with
      | .fits c' =>
        .fits { keys := InnerNode.keys nd, children := (InnerNode.children nd).set i c' }
      | .split l s r =>
        let nd' : InnerNode K (Node K V h) :=
          InnerNode.insertSeparator
            { keys := InnerNode.keys nd, children := (InnerNode.children nd).set i l } i s r
        if nd'.keys.length ≤ C then .fits nd' else InnerNode.split nd'

/-- Modelled from the spec: `Tree` of the missing `BTreeOLC.h`, "one reference to the
current root node", with the capacity of its nodes. -/
structure BTree (K V : Type) where
  capacity : Nat
  height : Nat
  root : Node K V height

/-- Modelled from the spec: construction of the tree in the missing `BTreeOLC.h`,
"construct an empty tree"; "ConfigurationError (capacity ≤ 1) must fail fast at tree
construction". -/
def BTree.empty (K V : Type) (C : Nat) : Option (BTree K V) :=
  if C ≤ 1 then none else some { capacity := C, height := 0, root := ([] : LeafNode K V) }

/-- Modelled from the spec: `lookup(key: K) -> Option<V>` of the missing `BTreeOLC.h`. -/
def BTree.lookup {K V : Type} [LinearOrder K] (t : BTree K V) (k : K) : Option V :=
  Node.lookup t.height t.root k

/-- Modelled from the spec: `insert(key: K, value: V) -> ()` of the missing `BTreeOLC.h`;
"if the root overflows, allocate a new root with exactly two children (old root, new
sibling)". -/
def BTree.insert {K V : Type} [LinearOrder K] (t : BTree K V) (k : K) (v : V) : BTree K V :=
  match Node.insert t.capacity t.height t.root k v with
  | .fits r => { capacity := t.capacity, height := t.height, root := r }
  | .split l s r =>
    { capacity := t.capacity, height := t.height + 1,
      root := ({ keys := [s], children := [l, r] } : InnerNode K (Node K V t.height)) }

/-- A sequence of `insert` calls, in the order in which they return. -/
def BTree.insertAll {K V : Type} [LinearOrder K] (t : BTree K V) (ops : List (K × V)) :
    BTree K V :=
  ops.foldl (fun t p => t.insert p.1 p.2) t

/-! ## The ordering invariant -/

/-- Modelled from the spec: invariant (a) for a leaf of the missing `BTreeOLC.h`, "keys
within any node are unique and strictly sorted", with the range `[lo, hi)` that the
ancestors' separators leave to the leaf. -/
def LeafWF {K V : Type} [LinearOrder K] (lo : WithBot K) (hi : WithTop K)
    (es : LeafNode K V) : Prop :=
  es.Pairwise (fun a b => a.1 < b.1) ∧ ∀ e ∈ es, lo ≤ (e.1 : WithBot K) ∧ (e.1 : WithTop K) < hi

/-- Modelled from the spec: the inner node of the missing `BTreeOLC.h` has "exactly
(key-count + 1) owned child references; child[i] subtree contains only keys <
separatorKey[i] and child[count] subtree contains keys ≥ separatorKey[count-1]"; `P` is
the invariant of the children, the separators are in ascending order within `[lo, hi]`. -/
def InnerWF {K α : Type} [LinearOrder K] (P : WithBot K → WithTop K → α → Prop) :
    WithBot K → WithTop K → List K → List α → Prop
  | lo, hi, [], [c] => P lo hi c
  | lo, hi, s :: ks, c :: cs =>
    lo ≤ (s : WithBot K) ∧ (s : WithTop K) ≤ hi ∧ P lo (s : WithTop K) c ∧
      InnerWF P (s : WithBot K) hi ks cs
  | _, _, _, _ => False

/-- Modelled from the spec: the ordering invariant of a subtree of the missing
`BTreeOLC.h` whose keys lie in `[lo, hi)`. -/
def Node.WF {K V : Type} [LinearOrder K] : (h : Nat) → WithBot K → WithTop K → Node K V h → Prop
  | 0, lo, hi, leaf => LeafWF lo hi leaf
  | h + 1, lo, hi, nd => InnerWF (Node.WF h) lo hi (InnerNode.keys nd) (InnerNode.children nd)

/-- The lookup in the result of an insertion into a subtree: in the node, or after a
split in the half on the side of the separator where the key belongs. -/
def InsertResult.lookupWith {K V α : Type} [LinearOrder K] (look : α → K → Option V) :
    InsertResult K α → K → Option V
  | .fits n, k => look n k
  | .split l s r, k => if k < s then look l k else look r k

/-- The invariant of the result of an insertion into a subtree with range `[lo, hi)`:
after a split the halves have the ranges `[lo, sep)` and `[sep, hi)`. -/
def InsertResult.WFWith {K α : Type} [LinearOrder K] (P : WithBot K → WithTop K → α → Prop)
    (lo : WithBot K) (hi : WithTop K) : InsertResult K α → Prop
  | .fits n => P lo hi n
  | .split l s r =>
    P lo (s : WithTop K) l ∧ P (s : WithBot K) hi r ∧ lo ≤ (s : WithBot K) ∧ (s : WithTop K) ≤ hi

/-- Modelled from the spec: the ordering invariant of the whole tree of the missing
`BTreeOLC.h`. -/
def BTree.WF {K V : Type} [LinearOrder K] (t : BTree K V) : Prop :=
  Node.WF t.height ⊥ ⊤ t.root

end btreeolc

/-! # Theorems about the harness -/

namespace LeisOLC

/-! ## Machine arithmetic lemmas -/

/-- A value below `2^64` is unchanged by the conversion to `uint64_t`. -/
theorem toUInt64_natCast (m : Nat) (h : m < 18446744073709551616) : toUInt64 (m : Int) = m := by
  unfold toUInt64; omega

/-- A value below `2^31` is unchanged by the narrowing to `int`. -/
theorem toInt32_natCast (m : Nat) (h : m < 2147483648) : toInt32 (m : Int) = m := by
  unfold toInt32; omega

/-- `int` division of two non-negative values is the division of natural numbers. -/
theorem tdiv_natCast (n t : Nat) : Int.tdiv (n : Int) (t : Int) = ((n / t : Nat) : Int) := rfl

/-! ## The spawn loop -/

/-- The spawn loop stays inside `threads[128]` when it ends at index 128 or before. -/
theorem spawnLoop_stop_ne_undefined {V : Type} (W : World V) (cfg tree q : Nat) :
    ∀ (remaining i : Nat), i + remaining ≤ 128 →
      (spawnLoop W cfg tree q remaining i).stop ≠ some .undefined := by
  intro remaining
  induction remaining with
  | zero => intro i _; simp [spawnLoop]
  | succ k ih =>
    intro i h
    have hi : ¬ 128 ≤ i := by omega
    simp only [spawnLoop, hi, if_false]
    by_cases hs : W.spawnOk cfg i = true
    · simp only [hs, if_true]
      exact ih (i + 1) (by omega)
    · simp [hs]

/-- The spawn loop when every `pthread_create` succeeds: one record per index, all spawned. -/
theorem spawnLoop_all_ok {V : Type} (W : World V) (cfg tree q : Nat) :
    ∀ (remaining i : Nat), i + remaining ≤ 128 →
      (∀ j, i ≤ j → j < i + remaining → W.spawnOk cfg j = true) →
      spawnLoop W cfg tree q remaining i =
        { threads := (List.range' i remaining).map
            (fun j => { n := q, data := (j * q) % 18446744073709551616, tree := tree }),
          spawned := remaining, stop := none } := by
  intro remaining
  induction remaining with
  | zero => intro i _ _; simp [spawnLoop]
  | succ k ih =>
    intro i h hok
    have hi : ¬ 128 ≤ i := by omega
    have hs : W.spawnOk cfg i = true := hok i (Nat.le_refl i) (by omega)
    simp only [spawnLoop, hi, if_false, hs, if_true]
    rw [ih (i + 1) (by omega) (fun j h1 h2 => hok j (by omega) (by omega))]
    simp [List.range'_succ]

/-- The spawn loop when `pthread_create` first fails at index `f`: the records up to `f`
are written, the workers below `f` exist, and the loop stops there. -/
theorem spawnLoop_fail {V : Type} (W : World V) (cfg tree q : Nat) :
    ∀ (remaining i f : Nat), i + remaining ≤ 128 → i ≤ f → f < i + remaining →
      W.spawnOk cfg f = false → (∀ j, i ≤ j → j < f → W.spawnOk cfg j = true) →
      spawnLoop W cfg tree q remaining i =
        { threads := (List.range' i (f - i + 1)).map
            (fun j => { n := q, data := (j * q) % 18446744073709551616, tree := tree }),
          spawned := f - i, stop := some (.aborted f) } := by
  intro remaining
  induction remaining with
  | zero => intro i f _ h1 h2; omega
  | succ k ih =>
    intro i f h h1 h2 hf hok
    have hi : ¬ 128 ≤ i := by omega
    by_cases hif : i = f
    · subst hif
      simp [spawnLoop, hi, hf]
    · have hs : W.spawnOk cfg i = true := hok i (Nat.le_refl i) (by omega)
      simp only [spawnLoop, hi, if_false, hs, if_true]
      rw [ih (i + 1) f (by omega) (by omega) (by omega) hf
        (fun j h1 h2 => hok j (by omega) h2)]
      obtain ⟨g, rfl⟩ : ∃ g, f = i + 1 + g := ⟨f - (i + 1), by omega⟩
      have e1 : i + 1 + g - i + 1 = (g + 1) + 1 := by omega
      have e2 : i + 1 + g - i = g + 1 := by omega
      have e3 : i + 1 + g - (i + 1) = g := by omega
      simp only [e1, e2, e3, List.range'_succ, List.map_cons]

/-- Either every worker below `m` is created or there is a first one whose creation
fails. -/
theorem first_failure (ok : Nat → Bool) :
    ∀ m : Nat, (∀ j, j < m → ok j = true) ∨
      ∃ f, f < m ∧ ok f = false ∧ ∀ j, j < f → ok j = true := by
  intro m
  induction m with
  | zero => left; intro j hj; omega
  | succ k ih =>
    rcases ih with h | ⟨f, hf, hff, hok⟩
    · by_cases hk : ok k = true
      · left
        intro j hj
        by_cases hjk : j = k
        · rw [hjk]; exact hk
        · exact h j (by omega)
      · right
        exact ⟨k, by omega, by simpa using hk, h⟩
    · right
      exact ⟨f, by omega, hff, hok⟩

/-- Every record written by the spawn loop holds the tree it was given. -/
theorem spawnLoop_threads_tree {V : Type} (W : World V) (cfg tree q : Nat) :
    ∀ (remaining i : Nat), ∀ td ∈ (spawnLoop W cfg tree q remaining i).threads,
      td.tree = tree := by
  intro remaining
  induction remaining with
  | zero => intro i td h; simp [spawnLoop] at h
  | succ k ih =>
    intro i td h
    simp only [spawnLoop] at h
    by_cases hi : 128 ≤ i
    · simp [hi] at h
    · cases hs : W.spawnOk cfg i with
      | true =>
        simp only [hi, hs, if_false, if_true, List.mem_cons] at h
        rcases h with h | h
        · rw [h]
        · exact ih (i + 1) td h
      | false =>
        simp [hi, hs] at h
        rw [h]

/-- The spawn loop writes at most as many records as it has iterations. -/
theorem spawnLoop_length_le {V : Type} (W : World V) (cfg tree q : Nat) :
    ∀ (remaining i : Nat), (spawnLoop W cfg tree q remaining i).threads.length ≤ remaining := by
  intro remaining
  induction remaining with
  | zero => intro i; simp [spawnLoop]
  | succ k ih =>
    intro i
    simp only [spawnLoop]
    by_cases hi : 128 ≤ i
    · simp [hi]
    · cases hs : W.spawnOk cfg i with
      | true =>
        simp only [hi, if_false, if_true, List.length_cons]
        exact Nat.succ_le_succ (ih (i + 1))
      | false => simp [hi]


/-! ## The workers -/

/-- The insert loop of a worker whose counter stays below `INT_MAX`: one call per index,
in ascending order, and a normal return. -/
theorem insertLoop_eq {V : Type} (W : World V) (td : thread_s) :
    ∀ (remaining i : Nat), i + remaining ≤ 2147483647 →
      insertLoop W td remaining i =
        { mem := W.mem,
          calls := (List.range' i remaining).map
            (fun j => { tree := td.tree, index := td.data + j, key := W.mem (td.data + j),
                        value := W.toDouble (W.mem (td.data + j)) }),
          status := .returned } := by
  intro remaining
  induction remaining with
  | zero => intro i _; simp [insertLoop]
  | succ k ih =>
    intro i h
    have hi : ¬ ((i : Int) = INT_MAX) := by unfold INT_MAX; omega
    simp only [insertLoop, hi, if_false]
    rw [ih (i + 1) (by omega)]
    simp [List.range'_succ]


/-- The first call of a worker whose record holds at least one key reads `data[0]`. -/
theorem insertLoop_first_call {V : Type} (W : World V) (td : thread_s) (remaining i : Nat) :
    (insertLoop W td (remaining + 1) i).calls.head?.map (fun c => c.index) =
      some (td.data + i) := by
  simp only [insertLoop]
  split <;> rfl


/-- A worker whose record holds more than `INT_MAX` keys overflows its counter. -/
theorem insertLoop_overflow {V : Type} (W : World V) (td : thread_s) :
    ∀ (d i remaining : Nat), i + d = 2147483647 → d < remaining →
      (insertLoop W td remaining i).status = .undefined := by
  intro d
  induction d with
  | zero =>
    intro i remaining hi hr
    obtain ⟨r, rfl⟩ : ∃ r, remaining = r + 1 := ⟨remaining - 1, by omega⟩
    have h : (i : Int) = INT_MAX := by unfold INT_MAX; omega
    simp only [insertLoop, h, if_true]
  | succ d ih =>
    intro i remaining hi hr
    obtain ⟨r, rfl⟩ : ∃ r, remaining = r + 1 := ⟨remaining - 1, by omega⟩
    have h : ¬ ((i : Int) = INT_MAX) := by unfold INT_MAX; omega
    simp only [insertLoop, h, if_false]
    exact ih (i + 1) r (by omega) (by omega)

/-- The run of a worker is defined when its chunk has at most `INT_MAX` keys and lies
inside the key array. -/
theorem workerDefined_of_chunk_inside {V : Type} (W : World V) (size : Nat) (td : thread_s)
    (hn : td.n ≤ 2147483647) (hin : ∀ j, j < td.n → td.data + j < size) :
    workerDefined W size td = true := by
  unfold workerDefined thread_insert
  rw [insertLoop_eq W td td.n 0 (by omega)]
  simp only [decide_True, Bool.true_and, List.all_eq_true, List.mem_map, List.mem_range'_1,
    decide_eq_true_eq]
  rintro c ⟨j, hj, rfl⟩
  exact hin j (by omega)

/-- The run of a worker whose record holds more than `INT_MAX` keys is undefined. -/
theorem workerDefined_of_overflow {V : Type} (W : World V) (size : Nat) (td : thread_s)
    (hn : 2147483647 < td.n) : workerDefined W size td = false := by
  unfold workerDefined thread_insert
  rw [insertLoop_overflow W td 2147483647 0 td.n (by omega) hn]
  rfl

/-- The run of a worker whose first key lies outside the key array is undefined. -/
theorem workerDefined_of_first_read_outside {V : Type} (W : World V) (size : Nat)
    (td : thread_s) (hn : 0 < td.n) (hout : size ≤ td.data) :
    workerDefined W size td = false := by
  unfold workerDefined thread_insert
  obtain ⟨r, hr⟩ : ∃ r, td.n = r + 1 := ⟨td.n - 1, by omega⟩
  rw [hr]
  have hlt : ¬ (td.data < size) := by omega
  simp only [insertLoop]
  split <;> simp [hlt]

/-! ## `experiment` -/

/-- With `1 ≤ t ≤ 128`, `experiment` has no undefined behaviour of its own. -/
theorem experiment_status_ne_undefined {V : Type} (W : World V) (cfg tree : Nat) (n t : Int)
    (size : Nat) (h1 : 1 ≤ t) (h2 : t ≤ 128) :
    (experiment W cfg tree n t size).status ≠ .undefined := by
  have ht : ¬ (t = 0 ∨ (n = INT_MIN ∧ t = -1)) := by omega
  have hs := spawnLoop_stop_ne_undefined W cfg tree (toUInt64 (Int.tdiv n t)) t.toNat 0 (by omega)
  unfold experiment
  simp only [ht, if_false]
  split
  · rename_i st hst
    intro hu
    apply hs
    rw [hst]
    simpa using hu
  · split <;> simp

/-- `experiment` with `1 ≤ t ≤ 128` when every spawn succeeds: it completes if the run
of every worker is defined. -/
theorem experiment_spawned {V : Type} (W : World V) (cfg tree : Nat) (n t : Int) (size : Nat)
    (h1 : 1 ≤ t) (h2 : t ≤ 128) (hok : ∀ j, j < t.toNat → W.spawnOk cfg j = true) :
    experiment W cfg tree n t size =
      if ((List.range' 0 t.toNat).map
          (fun j => ({ n := toUInt64 (Int.tdiv n t),
                       data := (j * toUInt64 (Int.tdiv n t)) % 18446744073709551616,
                       tree := tree } : thread_s))).all (workerDefined W size) then
        { n := n, t := t, tree := tree,
          threads := (List.range' 0 t.toNat).map
            (fun j => { n := toUInt64 (Int.tdiv n t),
                        data := (j * toUInt64 (Int.tdiv n t)) % 18446744073709551616,
                        tree := tree }),
          spawned := t.toNat, joined := t.toNat,
          output := [resultLine n t (W.now cfg 1 - W.now cfg 0)], status := .completed }
      else
        { n := n, t := t, tree := tree,
          threads := (List.range' 0 t.toNat).map
            (fun j => { n := toUInt64 (Int.tdiv n t),
                        data := (j * toUInt64 (Int.tdiv n t)) % 18446744073709551616,
                        tree := tree }),
          spawned := t.toNat, joined := 0, output := [], status := .workerFault } := by
  have ht : ¬ (t = 0 ∨ (n = INT_MIN ∧ t = -1)) := by omega
  unfold experiment
  simp only [ht, if_false]
  rw [spawnLoop_all_ok W cfg tree _ t.toNat 0 (by omega) (fun j _ hj => hok j (by omega))]

/-- `experiment` with `1 ≤ t ≤ 128` when the spawn of worker `f` is the first to fail. -/
theorem experiment_fail {V : Type} (W : World V) (cfg tree : Nat) (n t : Int) (size f : Nat)
    (h1 : 1 ≤ t) (h2 : t ≤ 128) (hf : f < t.toNat) (hfail : W.spawnOk cfg f = false)
    (hok : ∀ j, j < f → W.spawnOk cfg j = true) :
    experiment W cfg tree n t size =
      { n := n, t := t, tree := tree,
        threads := (List.range' 0 (f + 1)).map
          (fun j => { n := toUInt64 (Int.tdiv n t),
                      data := (j * toUInt64 (Int.tdiv n t)) % 18446744073709551616,
                      tree := tree }),
        spawned := f, joined := 0, output := [], status := .aborted f } := by
  have ht : ¬ (t = 0 ∨ (n = INT_MIN ∧ t = -1)) := by omega
  unfold experiment
  simp only [ht, if_false]
  rw [spawnLoop_fail W cfg tree _ t.toNat 0 f (by omega) (Nat.zero_le f) (by omega) hfail
    (fun j _ hj => hok j hj)]
  simp

/-- For arguments inside the `int` range and at most 128 threads, the record written at
index `j` is `(n / t, j * (n / t), tree)` without any wrap-around. -/
theorem chunk_record_eq (tree n t : Nat) (hn : n ≤ 2147483647) (m : Nat) (hm : m ≤ 128) :
    (List.range' 0 m).map
        (fun j => ({ n := toUInt64 (Int.tdiv (n : Int) (t : Int)),
                     data := (j * toUInt64 (Int.tdiv (n : Int) (t : Int))) % 18446744073709551616,
                     tree := tree } : thread_s)) =
      (List.range m).map (fun j => ({ n := n / t, data := j * (n / t), tree := tree } : thread_s)) := by
  have hq : n / t ≤ 2147483647 := le_trans (Nat.div_le_self n t) hn
  have hu : toUInt64 (Int.tdiv (n : Int) (t : Int)) = n / t := by
    rw [tdiv_natCast, toUInt64_natCast]; omega
  rw [hu, List.range_eq_range']
  apply List.map_congr_left
  intro j hj
  have hj' : j < m := by simpa using (List.mem_range'_1.mp hj).2
  have hjq : j * (n / t) ≤ 128 * 2147483647 := Nat.mul_le_mul (by omega) hq
  have : j * (n / t) % 18446744073709551616 = j * (n / t) := Nat.mod_eq_of_lt (by omega)
  rw [this]


/-- The `t` chunks of a record count that fits an `int` lie inside an array of at least
that many keys, so the run of each of their workers is defined. -/
theorem chunks_defined {V : Type} (W : World V) (tree n t size : Nat) (hn : n ≤ 2147483647)
    (hsize : n ≤ size) :
    ((List.range t).map
      (fun j => ({ n := n / t, data := j * (n / t), tree := tree } : thread_s))).all
        (workerDefined W size) = true := by
  rw [List.all_eq_true]
  intro td htd
  rw [List.mem_map] at htd
  obtain ⟨j, hj, rfl⟩ := htd
  have hjt : j < t := List.mem_range.mp hj
  apply workerDefined_of_chunk_inside
  · exact le_trans (Nat.div_le_self n t) hn
  · intro k hk
    have h1 : (j + 1) * (n / t) ≤ t * (n / t) := Nat.mul_le_mul_right _ hjt
    have h2 : t * (n / t) ≤ n := Nat.mul_div_le n t
    have h3 : (j + 1) * (n / t) = j * (n / t) + n / t := by ring
    simp only at hk ⊢
    omega

/-- `experiment` for a record count that fits an `int`, a key array of at least that
many keys and `1 ≤ t ≤ 128`, when every spawn succeeds: the `t` chunks, all workers
created and joined, one result line. -/
theorem experiment_all_ok {V : Type} (W : World V) (cfg tree n t size : Nat)
    (hn : n ≤ 2147483647) (hsize : n ≤ size) (ht1 : 1 ≤ t) (ht2 : t ≤ 128)
    (hok : ∀ j, j < t → W.spawnOk cfg j = true) :
    experiment W cfg tree n t size =
      { n := n, t := t, tree := tree,
        threads := (List.range t).map
          (fun j => { n := n / t, data := j * (n / t), tree := tree }),
        spawned := t, joined := t,
        output := [resultLine n t (W.now cfg 1 - W.now cfg 0)], status := .completed } := by
  rw [experiment_spawned W cfg tree n t size (by omega) (by omega) (by simpa using hok)]
  simp only [Int.toNat_ofNat, chunk_record_eq tree n t hn t ht2,
    chunks_defined W tree n t size hn hsize, if_true]

/-- Every record written by `experiment` holds the tree that call allocated. -/
theorem experiment_threads_tree {V : Type} (W : World V) (cfg tree : Nat) (n t : Int)
    (size : Nat) : ∀ td ∈ (experiment W cfg tree n t size).threads, td.tree = tree := by
  intro td h
  unfold experiment at h
  by_cases ht : t = 0 ∨ (n = INT_MIN ∧ t = -1)
  · simp [ht] at h
  · simp only [ht, if_false] at h
    split at h
    · exact spawnLoop_threads_tree W cfg tree _ _ _ td h
    · split at h <;> exact spawnLoop_threads_tree W cfg tree _ _ _ td h

/-- `experiment` reports the arguments it was called with. -/
theorem experiment_t {V : Type} (W : World V) (cfg tree : Nat) (n t : Int) (size : Nat) :
    (experiment W cfg tree n t size).t = t ∧ (experiment W cfg tree n t size).n = n := by
  unfold experiment
  split
  · exact ⟨rfl, rfl⟩
  · dsimp only
    split
    · exact ⟨rfl, rfl⟩
    · split <;> exact ⟨rfl, rfl⟩

/-- `experiment` writes at most `t` records and joins at most `t` threads. -/
theorem experiment_length_le {V : Type} (W : World V) (cfg tree : Nat) (n t : Int)
    (size : Nat) :
    (experiment W cfg tree n t size).threads.length ≤ t.toNat ∧
      (experiment W cfg tree n t size).joined ≤ t.toNat := by
  unfold experiment
  split
  · simp
  · dsimp only
    split
    · exact ⟨spawnLoop_length_le W cfg tree _ _ _, Nat.zero_le _⟩
    · split
      · exact ⟨spawnLoop_length_le W cfg tree _ _ _, Nat.le_refl _⟩
      · exact ⟨spawnLoop_length_le W cfg tree _ _ _, Nat.zero_le _⟩

/-- The records `experiment` writes are an initial segment of the `t` chunks, all of them
when every spawn succeeds. -/
theorem experiment_threads_initial {V : Type} (W : World V) (cfg tree n t size : Nat)
    (hn : n ≤ 2147483647) (ht1 : 1 ≤ t) (ht2 : t ≤ 128) :
    ∃ m, m ≤ t ∧
      (experiment W cfg tree n t size).threads =
        (List.range m).map (fun j => ({ n := n / t, data := j * (n / t), tree := tree } : thread_s)) ∧
      ((∀ j, j < t → W.spawnOk cfg j = true) →
        m = t ∧ (experiment W cfg tree n t size).spawned = t) := by
  have h1 : (1 : Int) ≤ (t : Int) := by omega
  have h2 : (t : Int) ≤ 128 := by omega
  rcases first_failure (W.spawnOk cfg) t with hok | ⟨f, hf, hfail, hok⟩
  · have hs := experiment_spawned W cfg tree n t size h1 h2 (by simpa using hok)
    simp only [Int.toNat_ofNat, chunk_record_eq tree n t hn t ht2] at hs
    refine ⟨t, Nat.le_refl t, ?_, fun _ => ⟨rfl, ?_⟩⟩
    · rw [hs]; split <;> rfl
    · rw [hs]; split <;> rfl
  · refine ⟨f + 1, by omega, ?_, fun hall => ?_⟩
    · rw [experiment_fail W cfg tree n t size f h1 h2 (by simpa using hf) hfail hok]
      simpa using chunk_record_eq tree n t hn (f + 1) (by omega)
    · have := hall f hf
      rw [hfail] at this
      exact absurd this (by decide)

/-! ## `main` -/

/-- Every configured thread count lies between 1 and 128. -/
theorem all_t_bounds : ∀ t ∈ all_t, 1 ≤ t ∧ t ≤ 128 := by decide

/-- A run whose arguments do not parse ends with the exception before anything else. -/
theorem main_of_parse_error {V : Type} (W : World V) (argv : List String) (e : StolError)
    (h : parseArgs argv = .error e) :
    main W argv = { stdout := [], generated := none, runs := [], exit := .terminated e } := by
  unfold main
  simp only [h]


/-- The arguments either parse or raise an exception of `std::stol`. -/
theorem parseArgs_cases (argv : List String) :
    (∃ e, parseArgs argv = .error e) ∨ ∃ n t, parseArgs argv = .ok (n, t) := by
  cases h : parseArgs argv with
  | error e => exact Or.inl ⟨e, rfl⟩
  | ok p => exact Or.inr ⟨p.1, p.2, rfl⟩


/-- `experiment` with an `int` thread count between 1 and 128, for a record count that
fits an `int` and a key array of at least that many keys, when every spawn succeeds. -/
theorem experiment_all_ok_int {V : Type} (W : World V) (cfg tree n : Nat) (t : Int)
    (size : Nat) (hn : n ≤ 2147483647) (hsize : n ≤ size) (ht1 : 1 ≤ t) (ht2 : t ≤ 128)
    (hok : ∀ j, W.spawnOk cfg j = true) :
    experiment W cfg tree n t size =
      { n := n, t := t, tree := tree,
        threads := (List.range t.toNat).map
          (fun j => { n := n / t.toNat, data := j * (n / t.toNat), tree := tree }),
        spawned := t.toNat, joined := t.toNat,
        output := [resultLine n t (W.now cfg 1 - W.now cfg 0)], status := .completed } := by
  obtain ⟨t', rfl⟩ : ∃ t' : Nat, t = (t' : Int) := ⟨t.toNat, by omega⟩
  rw [experiment_all_ok W cfg tree n t' size hn hsize (by omega) (by omega) (fun j _ => hok j)]
  simp

/-- After a call of `experiment` in which every spawn succeeds, or the very first fails,
`main` goes on (record count that fits an `int`, thread count between 1 and 128). -/
theorem experiment_continues {V : Type} (W : World V) (cfg tree n : Nat) (t : Int)
    (size : Nat) (hn : n ≤ 2147483647) (hsize : n ≤ size) (ht1 : 1 ≤ t) (ht2 : t ≤ 128)
    (hclean : W.spawnOk cfg 0 = false ∨ ∀ j, W.spawnOk cfg j = true) :
    (experiment W cfg tree n t size).status.continues = true := by
  rcases hclean with h0 | hok
  · rw [experiment_fail W cfg tree n t size 0 ht1 ht2 (by omega) h0 (fun j hj => by omega)]
    rfl
  · rw [experiment_all_ok_int W cfg tree n t size hn hsize ht1 ht2 hok]
    rfl

/-- Every call of `experiment` in the loop of `main` gets the narrowed record count, a
thread count of the list, and the generated keys. -/
theorem runConfigs_mem {V : Type} (W : World V) (n : Nat) :
    ∀ (ts : List Int) (cfg : Nat), ∀ r ∈ runConfigs W n ts cfg,
      ∃ k tt, tt ∈ ts ∧ r = experiment W k k (toInt32 n) tt n := by
  intro ts
  induction ts with
  | nil => intro cfg r hr; simp [runConfigs] at hr
  | cons tt ts ih =>
    intro cfg r hr
    simp only [runConfigs] at hr
    split at hr
    · rcases List.mem_cons.mp hr with h | h
      · exact ⟨cfg, tt, List.mem_cons_self _ _, h⟩
      · obtain ⟨k, t2, ht2, he⟩ := ih (cfg + 1) r h
        exact ⟨k, t2, List.mem_cons_of_mem _ ht2, he⟩
    · rw [List.mem_singleton] at hr
      exact ⟨cfg, tt, List.mem_cons_self _ _, hr⟩

/-- The loop of `main` starts with the call for the first configuration. -/
theorem runConfigs_head {V : Type} (W : World V) (n : Nat) (tt : Int) (ts : List Int)
    (cfg : Nat) :
    (runConfigs W n (tt :: ts) cfg).head? = some (experiment W cfg cfg (toInt32 n) tt n) := by
  simp only [runConfigs]
  split <;> rfl

/-- When `main` goes on after each call, the loop calls `experiment` once per
configuration, in order. -/
theorem runConfigs_eq {V : Type} (W : World V) (n : Nat) :
    ∀ (ts : List Int) (cfg : Nat),
      (∀ p ∈ ts.enumFrom cfg,
        (experiment W p.1 p.1 (toInt32 n) p.2 n).status.continues = true) →
      runConfigs W n ts cfg =
        (ts.enumFrom cfg).map (fun p => experiment W p.1 p.1 (toInt32 n) p.2 n) := by
  intro ts
  induction ts with
  | nil => intro cfg _; simp [runConfigs]
  | cons tt ts ih =>
    intro cfg h
    have hc := h (cfg, tt) (by simp [List.enumFrom_cons])
    simp only at hc
    simp only [runConfigs, hc, if_true, List.enumFrom_cons, List.map_cons]
    rw [ih (cfg + 1) (fun p hp => h p (by simp [List.enumFrom_cons, hp]))]

/-- A run whose arguments parse: the three leading lines, then the lines of the calls
of `experiment`. -/
theorem main_of_parse_ok {V : Type} (W : World V) (argv : List String) (n t : Nat)
    (h : parseArgs argv = .ok (n, t)) :
    main W argv =
      { stdout :=
          ["> Generating data, hold on ...", "> Data generation completed",
           "Number of Records,Number of Threads,Time"] ++
            (runConfigs W n all_t 0).flatMap (fun r => r.output),
        generated := some n,
        runs := runConfigs W n all_t 0,
        exit := if (runConfigs W n all_t 0).all (fun r => r.status.continues) then .returned 0
          else .undefined } := by
  unfold main
  simp only [h]

/-- The calls of `experiment` in a run whose record count fits an `int` and in which,
in each configuration, every spawn succeeds or the very first fails: one per
configuration, in order. -/
theorem runConfigs_clean {V : Type} (W : World V) (n : Nat) (hn : n ≤ 2147483647)
    (hclean : ∀ cfg, W.spawnOk cfg 0 = false ∨ ∀ j, W.spawnOk cfg j = true) :
    runConfigs W n all_t 0 =
      (all_t.enumFrom 0).map (fun p => experiment W p.1 p.1 n p.2 n) ∧
    (runConfigs W n all_t 0).all (fun r => r.status.continues) = true := by
  have hn32 : toInt32 (n : Int) = n := toInt32_natCast n (by omega)
  have hcont : ∀ p ∈ all_t.enumFrom 0,
      (experiment W p.1 p.1 (toInt32 n) p.2 n).status.continues = true := by
    intro p hp
    have hm := List.mem_enumFrom hp
    have hb := all_t_bounds p.2 (by rw [hm.2.2]; exact List.getElem_mem _)
    rw [hn32]
    exact experiment_continues W p.1 p.1 n p.2 n hn (Nat.le_refl n) hb.1 hb.2 (hclean p.1)
  have hr := runConfigs_eq W n all_t 0 hcont
  rw [hn32] at hr
  refine ⟨hr, ?_⟩
  rw [hr, List.all_eq_true]
  intro r hrm
  rw [List.mem_map] at hrm
  obtain ⟨p, hp, rfl⟩ := hrm
  have := hcont p hp
  rw [hn32] at this
  exact this

/-- A run whose arguments parse to a record count that fits an `int` and in which, in
each configuration, every spawn succeeds or the very first fails: all configurations
are run and `main` returns 0. -/
theorem main_clean {V : Type} (W : World V) (argv : List String) (n t : Nat)
    (h : parseArgs argv = .ok (n, t)) (hn : n ≤ 2147483647)
    (hclean : ∀ cfg, W.spawnOk cfg 0 = false ∨ ∀ j, W.spawnOk cfg j = true) :
    main W argv =
      { stdout :=
          ["> Generating data, hold on ...", "> Data generation completed",
           "Number of Records,Number of Threads,Time"] ++
            ((all_t.enumFrom 0).map
              (fun p => experiment W p.1 p.1 n p.2 n)).flatMap (fun r => r.output),
        generated := some n,
        runs := (all_t.enumFrom 0).map (fun p => experiment W p.1 p.1 n p.2 n),
        exit := .returned 0 } := by
  obtain ⟨hr, hall⟩ := runConfigs_clean W n hn hclean
  rw [main_of_parse_ok W argv n t h, hall, if_pos rfl, hr]

/-- In a run as in `main_clean` the thread counts of the calls of `experiment` are the
configured ones, in order. -/
theorem main_runs_t {V : Type} (W : World V) (argv : List String) (n t : Nat)
    (h : parseArgs argv = .ok (n, t)) (hn : n ≤ 2147483647)
    (hclean : ∀ cfg, W.spawnOk cfg 0 = false ∨ ∀ j, W.spawnOk cfg j = true) :
    (main W argv).runs.map (fun r => r.t) = all_t := by
  rw [main_clean W argv n t h hn hclean]
  simp only [List.map_map]
  have : ((fun r : ExperimentResult => r.t) ∘
      fun p : Nat × Int => experiment W p.1 p.1 n p.2 n) = Prod.snd := by
    funext p
    exact (experiment_t W p.1 p.1 n p.2 n).1
  rw [this, List.enumFrom_map_snd]

/-- Every call of `experiment` in a run gets the narrowed record count, a configured
thread count, and the generated keys. -/
theorem main_runs_mem {V : Type} (W : World V) (argv : List String) (n t : Nat)
    (h : parseArgs argv = .ok (n, t)) (r : ExperimentResult) (hr : r ∈ (main W argv).runs) :
    ∃ k tt, tt ∈ all_t ∧ r = experiment W k k (toInt32 n) tt n := by
  rw [main_of_parse_ok W argv n t h] at hr
  dsimp only at hr
  exact runConfigs_mem W n all_t 0 r hr

/-- A run whose arguments parse calls `experiment` at least once, first for the first
configuration. -/
theorem main_runs_head {V : Type} (W : World V) (argv : List String) (n t : Nat)
    (h : parseArgs argv = .ok (n, t)) :
    (main W argv).runs.head? = some (experiment W 0 0 (toInt32 n) 1 n) := by
  rw [main_of_parse_ok W argv n t h]
  dsimp only
  exact runConfigs_head W n 1 _ 0

/-! ## The partition of the key array (C2) -/

/-- C2, counterexample: in the configuration with four threads (call number 2 of
`main`), with 40 keys, when `pthread_create` fails for worker 1, `experiment` fills in
`threads[0]` and `threads[1]` only and has one worker: workers 1, 2 and 3 get no chunk,
and the keys from index 10 on belong to no worker although `4 * (40 / 4) = 40`. -/
theorem spawn_failure_leaves_chunks_unassigned :
    all_t[2]? = some 4 ∧
    (experiment flakyWorld 2 2 40 4 40).threads =
      [{ n := 10, data := 0, tree := 2 }, { n := 10, data := 10, tree := 2 }] ∧
    (experiment flakyWorld 2 2 40 4 40).workers = [{ n := 10, data := 0, tree := 2 }] := by
  decide

/-- C2 (amended): for a record count `0 ≤ n ≤ INT_MAX` and a thread count `1 ≤ t ≤ 128`
(as all that `main` passes are), whatever the size of the key array, every record
`threads[i]` that `experiment` fills in is the chunk of length `n / t` starting at offset
`i * (n / t)`; when every spawn succeeds the workers are exactly the `t` chunks
`i = 0 .. t-1`, a key index lies in some worker's chunk iff it is below `t * (n / t)`;
the chunks are ordered, contiguous and pairwise disjoint, lie inside `[0, n)`, and the
`n mod t` indices from `t * (n / t)` to `n` belong to no worker; when the spawn of
worker `f` is the first to fail, the workers are the chunks `i = 0 .. f-1` only. -/
theorem experiment_partition {V : Type} (W : World V) (cfg tree n t size : Nat)
    (hn : n ≤ 2147483647) (ht1 : 1 ≤ t) (ht2 : t ≤ 128) :
    (∀ (i : Nat) (h : i < (experiment W cfg tree n t size).threads.length),
        (experiment W cfg tree n t size).threads[i] =
          { n := n / t, data := i * (n / t), tree := tree }) ∧
    ((∀ j, j < t → W.spawnOk cfg j = true) →
      (experiment W cfg tree n t size).workers =
          (List.range t).map (fun i => { n := n / t, data := i * (n / t), tree := tree }) ∧
      (∀ x, (∃ td ∈ (experiment W cfg tree n t size).workers, td.data ≤ x ∧ x < td.data + td.n) ↔
          x < t * (n / t))) ∧
    (∀ i, i < t → (i + 1) * (n / t) = i * (n / t) + n / t ∧ i * (n / t) + n / t ≤ n) ∧
    (∀ i j, i < j → j < t → i * (n / t) + n / t ≤ j * (n / t)) ∧
    t * (n / t) ≤ n ∧ n - t * (n / t) = n % t ∧
    (∀ f, f < t → W.spawnOk cfg f = false → (∀ j, j < f → W.spawnOk cfg j = true) →
      (experiment W cfg tree n t size).workers =
        (List.range f).map (fun i => { n := n / t, data := i * (n / t), tree := tree })) := by
  obtain ⟨m, hm, hthreads, hall⟩ := experiment_threads_initial W cfg tree n t size hn ht1 ht2
  have hmul : t * (n / t) ≤ n := Nat.mul_div_le n t
  have hstep : ∀ i, (i + 1) * (n / t) = i * (n / t) + n / t := fun i => by ring
  have hmono : ∀ i j, i < j → i * (n / t) + n / t ≤ j * (n / t) := by
    intro i j hij
    rw [← hstep]
    exact Nat.mul_le_mul_right _ hij
  refine ⟨?_, ?_, ?_, ?_, hmul, ?_, ?_⟩
  · intro i h
    simp only [hthreads, List.getElem_map, List.getElem_range]
  · intro hok
    obtain ⟨hmt, hsp⟩ := hall hok
    have hw : (experiment W cfg tree n t size).workers =
        (List.range t).map (fun i => { n := n / t, data := i * (n / t), tree := tree }) := by
      unfold ExperimentResult.workers
      rw [hsp, hthreads, hmt]
      apply List.take_of_length_le
      simp
    refine ⟨hw, fun x => ?_⟩
    rw [hw]
    constructor
    · rintro ⟨td, htd, h1, h2⟩
      rw [List.mem_map] at htd
      obtain ⟨i, hi, rfl⟩ := htd
      have hi' : i < t := List.mem_range.mp hi
      have := hmono i t hi'
      simp only at h2
      omega
    · intro hx
      have hq : 0 < n / t := by
        rcases Nat.eq_zero_or_pos (n / t) with h0 | h0
        · rw [h0] at hx; omega
        · exact h0
      refine ⟨{ n := n / t, data := (x / (n / t)) * (n / t), tree := tree }, ?_, ?_, ?_⟩
      · rw [List.mem_map]
        refine ⟨x / (n / t), List.mem_range.mpr ?_, rfl⟩
        exact (Nat.div_lt_iff_lt_mul hq).mpr hx
      · exact Nat.div_mul_le_self x (n / t)
      · simp only
        rw [← hstep]
        exact Nat.lt_mul_of_div_lt (Nat.lt_succ_self _) hq
  · intro i hi
    refine ⟨hstep i, ?_⟩
    exact le_trans (hmono i t hi) hmul
  · intro i j hij _
    exact hmono i j hij
  · have := Nat.div_add_mod n t
    omega
  · intro f hf hfail hok
    unfold ExperimentResult.workers
    rw [experiment_fail W cfg tree n t size f (by omega) (by omega) (by simpa using hf) hfail hok]
    simp only [chunk_record_eq tree n t hn (f + 1) (by omega), ← List.map_take]
    congr 1
    rw [List.take_range]
    congr 1
    omega

/-- C2 (amended), witness: ten keys over four threads. -/
theorem experiment_partition_witness :
    (10 ≤ 2147483647 ∧ 1 ≤ 4 ∧ 4 ≤ 128) ∧
    (experiment idealWorld 0 0 ((10 : Nat) : Int) ((4 : Nat) : Int) 10).workers =
      (List.range 4).map (fun i => { n := 10 / 4, data := i * (10 / 4), tree := 0 }) ∧
    10 - 4 * (10 / 4) = 10 % 4 :=
  ⟨by decide,
   ((experiment_partition idealWorld 0 0 10 4 10 (by decide) (by decide) (by decide)).2.1
      (fun _ _ => rfl)).1,
   (experiment_partition idealWorld 0 0 10 4 10 (by decide) (by decide) (by decide)).2.2.2.2.2.1⟩

/-! ## The workers (C3) -/

/-- C3: every record filled in by one call of `experiment` carries the one tree that
call allocated, and a worker whose record holds `n ≤ 2^31 - 1` returns after issuing
exactly the calls `insert(data[j], (double) data[j])` for `j = 0, 1, .., n-1`, in this
order, on the tree of its record; the key array is the same after as before. -/
theorem thread_insert_calls {V : Type} (W : World V) (cfg tree : Nat) (n t : Int)
    (size : Nat) (td : thread_s) (hn : td.n ≤ 2147483647) :
    (∀ w ∈ (experiment W cfg tree n t size).threads, w.tree = tree) ∧
    thread_insert W td =
      { mem := W.mem,
        calls := (List.range td.n).map
          (fun j => { tree := td.tree, index := td.data + j, key := W.mem (td.data + j),
                      value := W.toDouble (W.mem (td.data + j)) }),
        status := .returned } := by
  refine ⟨experiment_threads_tree W cfg tree n t size, ?_⟩
  unfold thread_insert
  rw [insertLoop_eq W td td.n 0 (by omega), List.range_eq_range']

/-- C3, witness: the worker of the chunk of three keys at offset 5. -/
theorem thread_insert_calls_witness :
    (3 ≤ 2147483647) ∧
    (thread_insert idealWorld { n := 3, data := 5, tree := 7 }).calls.map
        (fun c => (c.tree, c.index, c.key, c.value)) =
      [(7, 5, 5, 5), (7, 6, 6, 6), (7, 7, 7, 7)] ∧
    (thread_insert idealWorld { n := 3, data := 5, tree := 7 }).status = .returned :=
  ⟨by decide,
   by rw [(thread_insert_calls idealWorld 0 0 0 1 8 { n := 3, data := 5, tree := 7 }
        (by decide)).2]; rfl,
   by rw [(thread_insert_calls idealWorld 0 0 0 1 8 { n := 3, data := 5, tree := 7 }
        (by decide)).2]⟩

/-! ## The thread-record array (C10) -/

/-- C10: every thread count `t` of the hard-coded list satisfies `1 ≤ t ≤ 128`; for such
a `t`, whatever the record count, the key array and the spawn outcomes, `experiment` has
no undefined behaviour of its own (no division by zero, no index outside `threads[128]`),
fills in at most 128 records and joins at most 128; and every call of `experiment` that
`main` makes has its thread count from that list and neither divides by zero nor
indexes outside `threads[128]`. -/
theorem configured_thread_counts_in_bounds {V : Type} (W : World V) (cfg tree : Nat)
    (n t : Int) (size : Nat) (ht : t ∈ all_t) :
    (1 ≤ t ∧ t ≤ 128) ∧
    (experiment W cfg tree n t size).status ≠ .undefined ∧
    (experiment W cfg tree n t size).threads.length ≤ 128 ∧
    (experiment W cfg tree n t size).joined ≤ 128 ∧
    (∀ argv, ∀ r ∈ (main W argv).runs, r.t ∈ all_t ∧ r.status ≠ .undefined) := by
  have hb := all_t_bounds t ht
  have hl := experiment_length_le W cfg tree n t size
  refine ⟨hb, experiment_status_ne_undefined W cfg tree n t size hb.1 hb.2, by omega, by omega, ?_⟩
  intro argv r hr
  rcases parseArgs_cases argv with ⟨e, he⟩ | ⟨n', t', hp⟩
  · rw [main_of_parse_error W argv e he] at hr
    simp at hr
  · obtain ⟨k, tt, htt, rfl⟩ := main_runs_mem W argv n' t' hp r hr
    have hb' := all_t_bounds tt htt
    exact ⟨by rw [(experiment_t W k k _ tt _).1]; exact htt,
      experiment_status_ne_undefined W k k _ tt _ hb'.1 hb'.2⟩

/-- C10, witness: the largest configured thread count, 128. -/
theorem configured_thread_counts_in_bounds_witness :
    (128 : Int) ∈ all_t ∧ (experiment idealWorld 17 17 1000 128 1000).status ≠ .undefined ∧
      (experiment idealWorld 17 17 1000 128 1000).threads.length ≤ 128 :=
  ⟨by decide,
   (configured_thread_counts_in_bounds idealWorld 17 17 1000 128 1000 (by decide)).2.1,
   (configured_thread_counts_in_bounds idealWorld 17 17 1000 128 1000 (by decide)).2.2.1⟩

/-! ## Failure of `pthread_create` (C6) -/

/-- When the spawn that fails in configuration number `k` is that of worker 0, in a run
whose record count fits an `int` and in which every other configuration has no failure
but possibly that of its worker 0: that call of `experiment` returns at once without any
worker and without a line, all configurations are run and `main` returns 0. -/
theorem spawn_failure_of_first_worker {V : Type} (W : World V) (argv : List String)
    (n t : Nat) (hp : parseArgs argv = .ok (n, t)) (hn : n ≤ 2147483647)
    (hclean : ∀ cfg, W.spawnOk cfg 0 = false ∨ ∀ j, W.spawnOk cfg j = true)
    (k : Nat) (tt : Int) (hk : all_t[k]? = some tt) (hfail : W.spawnOk k 0 = false) :
    (∃ r, (main W argv).runs[k]? = some r ∧ r.t = tt ∧ r.status = .aborted 0 ∧
        r.spawned = 0 ∧ r.joined = 0 ∧ r.output = []) ∧
    (main W argv).runs.map (fun r => r.t) = all_t ∧
    (main W argv).exit = .returned 0 := by
  have hmem : tt ∈ all_t := List.getElem?_mem hk
  have hb := all_t_bounds tt hmem
  refine ⟨⟨experiment W k k n tt n, ?_, ?_⟩, main_runs_t W argv n t hp hn hclean, ?_⟩
  · rw [main_clean W argv n t hp hn hclean]
    simp only [List.getElem?_map, List.getElem?_enumFrom, hk, Option.map_some', Nat.zero_add]
  · rw [experiment_fail W k k n tt n 0 hb.1 hb.2 (by omega) hfail (fun j hj => by omega)]
    simp
  · rw [main_clean W argv n t hp hn hclean]

/-- C6, the code at the failing input `prog 40 1` when `pthread_create` fails for
worker 1 of the configuration with four threads: the configurations with one and two
threads complete and print their lines; the call for four threads returns at the failed
spawn with worker 0 created and never joined, and prints nothing.  Worker 0 goes on
reading its record `threads[0]`, which was local to the call that has returned: the
behaviour of the process is undefined from there, nothing says that the remaining
configurations run or that `main` returns 0. -/
theorem spawn_failure_leaves_workers_behind :
    (main flakyWorld ["prog", "40", "1"]).runs.map
        (fun r => (r.t, r.status, r.spawned, r.joined)) =
      [(1, .completed, 1, 1), (2, .completed, 2, 2), (4, .aborted 1, 1, 0)] ∧
    (main flakyWorld ["prog", "40", "1"]).stdout =
      ["> Generating data, hold on ...", "> Data generation completed",
       "Number of Records,Number of Threads,Time", "40,1,0", "40,2,0"] ∧
    (main flakyWorld ["prog", "40", "1"]).exit = .undefined := by
  decide

/-! ## The thread-count argument (C1) -/

/-- In a run whose arguments parse to a record count that fits an `int`, with every
spawn succeeding, the numbers of workers created are the configured thread counts. -/
theorem main_runs_spawned {V : Type} (W : World V) (argv : List String) (n t : Nat)
    (hp : parseArgs argv = .ok (n, t)) (hn : n ≤ 2147483647)
    (hok : ∀ cfg i, W.spawnOk cfg i = true) :
    (main W argv).runs.map (fun r => r.spawned) = all_t.map Int.toNat ∧
    (main W argv).runs.map (fun r => r.n) = all_t.map (fun _ => (n : Int)) := by
  rw [main_clean W argv n t hp hn (fun cfg => Or.inr (hok cfg))]
  simp only [List.map_map]
  have h1 : ∀ p ∈ all_t.enumFrom 0,
      ((fun r : ExperimentResult => r.spawned) ∘
        fun p : Nat × Int => experiment W p.1 p.1 n p.2 n) p = (Int.toNat ∘ Prod.snd) p := by
    intro p hpm
    have hm := List.mem_enumFrom hpm
    have hb := all_t_bounds p.2 (by rw [hm.2.2]; exact List.getElem_mem _)
    simp only [Function.comp]
    rw [experiment_all_ok_int W p.1 p.1 n p.2 n hn (Nat.le_refl n) hb.1 hb.2 (hok p.1)]
  have h2 : ((fun r : ExperimentResult => r.n) ∘
      fun p : Nat × Int => experiment W p.1 p.1 n p.2 n) =
      ((fun _ : Int => (n : Int)) ∘ Prod.snd) := by
    funext p
    exact (experiment_t W p.1 p.1 n p.2 n).2
  rw [List.map_congr_left h1, h2, ← List.map_map, ← List.map_map, List.enumFrom_map_snd]
  exact ⟨rfl, rfl⟩

/-- C1, counterexample: `prog 10 3` never runs an experiment with 3 workers, and a run
without arguments does not stop at 1 worker: both run the 18 hard-coded configurations
with 1, 2, 4, .., 128 workers. -/
theorem thread_count_argument_is_ignored :
    (main idealWorld ["prog", "10", "3"]).runs.map (fun r => r.spawned) =
      [1, 2, 4, 5, 6, 8, 10, 12, 14, 15, 16, 18, 20, 32, 48, 64, 96, 128] ∧
    (main idealWorld ["prog"]).runs.map (fun r => r.spawned) =
      [1, 2, 4, 5, 6, 8, 10, 12, 14, 15, 16, 18, 20, 32, 48, 64, 96, 128] :=
  ⟨(main_runs_spawned idealWorld ["prog", "10", "3"] 10 3 rfl (by decide) (fun _ _ => rfl)).1,
   (main_runs_spawned idealWorld ["prog"] 100000000 1 rfl (by decide) (fun _ _ => rfl)).1⟩

/-- C1 (amended): whatever the arguments are, provided they parse to a record count of
at most `2^31 - 1`, when every spawn succeeds `main` runs one experiment for each thread
count of the hard-coded list, in order, and the experiment with thread count `tt` fills
in exactly `tt` chunks, creates exactly `tt` workers, joins them and completes; `main`
returns 0.  The parsed thread count `t` plays no part. -/
theorem thread_counts_are_the_configured_ones {V : Type} (W : World V) (argv : List String)
    (n t : Nat) (hp : parseArgs argv = .ok (n, t)) (hn : n ≤ 2147483647)
    (hok : ∀ cfg i, W.spawnOk cfg i = true) :
    (main W argv).runs.map (fun r => r.t) = all_t ∧
    (∀ r ∈ (main W argv).runs,
      (r.threads.length : Int) = r.t ∧ (r.spawned : Int) = r.t ∧ (r.joined : Int) = r.t ∧
        r.status = .completed) ∧
    (main W argv).exit = .returned 0 := by
  have hclean : ∀ cfg, W.spawnOk cfg 0 = false ∨ ∀ j, W.spawnOk cfg j = true :=
    fun cfg => Or.inr (hok cfg)
  refine ⟨main_runs_t W argv n t hp hn hclean, ?_, ?_⟩
  · intro r hr
    obtain ⟨k, tt, htt, rfl⟩ := main_runs_mem W argv n t hp r hr
    have hb := all_t_bounds tt htt
    rw [toInt32_natCast n (by omega),
      experiment_all_ok_int W k k n tt n hn (Nat.le_refl n) hb.1 hb.2 (hok k)]
    simp only [List.length_map, List.length_range]
    exact ⟨by omega, by omega, by omega, trivial⟩
  · rw [main_clean W argv n t hp hn hclean]

/-- C1 (amended), witness: `prog 10 3`, and `prog` without arguments. -/
theorem thread_counts_are_the_configured_ones_witness :
    (parseArgs ["prog", "10", "3"] = .ok (10, 3) ∧ 10 ≤ 2147483647) ∧
    (main idealWorld ["prog", "10", "3"]).runs.map (fun r => r.t) = all_t ∧
    (main idealWorld ["prog", "10", "3"]).exit = .returned 0 ∧
    (parseArgs ["prog"] = .ok (100000000, 1) ∧ 100000000 ≤ 2147483647) ∧
    (main idealWorld ["prog"]).runs.map (fun r => r.t) = all_t :=
  ⟨⟨rfl, by decide⟩,
   (thread_counts_are_the_configured_ones idealWorld ["prog", "10", "3"] 10 3 rfl (by decide)
    (fun _ _ => rfl)).1,
   (thread_counts_are_the_configured_ones idealWorld ["prog", "10", "3"] 10 3 rfl (by decide)
    (fun _ _ => rfl)).2.2,
   ⟨rfl, by decide⟩,
   (thread_counts_are_the_configured_ones idealWorld ["prog"] 100000000 1 rfl (by decide)
    (fun _ _ => rfl)).1⟩

/-! ## The record-count argument (C7) -/

/-- A value `std::stol` returns fits a 64-bit `long`. -/
theorem stol_range (s : String) (v : Int) (h : stol s = .ok v) :
    LONG_MIN ≤ v ∧ v ≤ LONG_MAX := by
  unfold stol at h
  dsimp only at h
  by_cases he : ((takeSign (s.toList.dropWhile isspace)).2.takeWhile isdigit).isEmpty = true
  · rw [if_pos he] at h
    exact absurd h (by simp)
  · rw [if_neg he] at h
    generalize (if (takeSign (s.toList.dropWhile isspace)).1 = true then
      -(digitsValue ((takeSign (s.toList.dropWhile isspace)).2.takeWhile isdigit) : Int)
      else (digitsValue ((takeSign (s.toList.dropWhile isspace)).2.takeWhile isdigit) : Int)) = x at h
    by_cases hx : x < LONG_MIN ∨ LONG_MAX < x
    · rw [if_pos hx] at h
      exact absurd h (by simp)
    · rw [if_neg hx] at h
      injection h with h
      rw [← h]
      omega

/-- C7, counterexample: with the record count as the only argument, `prog 5`, the run
generates 100,000,000 keys and every experiment gets 100,000,000, not 5. -/
theorem single_argument_is_ignored :
    (main idealWorld ["prog", "5"]).generated = some 100000000 ∧
    (main idealWorld ["prog", "5"]).runs.map (fun r => r.n) = List.replicate 18 100000000 :=
  ⟨by rw [main_of_parse_ok idealWorld ["prog", "5"] 100000000 1 rfl],
   (main_runs_spawned idealWorld ["prog", "5"] 100000000 1 rfl (by decide) (fun _ _ => rfl)).2⟩

/-- C7 (amended): when exactly two positional arguments are given, both accepted by
`std::stol`, and the first is not negative, the number of keys generated is the first
argument, and it is also the record count of every experiment when it is at most
`2^31 - 1`; with any other number of arguments (none, one, three or more) the number
of keys generated and the record count of every experiment is 100,000,000.  In both
cases at least the first configuration is run, and all of them are when every spawn
succeeds (and the record count is at most `2^31 - 1`). -/
theorem record_count_argument {V : Type} (W : World V) (argv : List String) :
    (∀ (p a1 a2 : String) (v1 v2 : Int), argv = [p, a1, a2] → stol a1 = .ok v1 →
        stol a2 = .ok v2 → 0 ≤ v1 →
        (main W argv).generated = some v1.toNat ∧
        (main W argv).runs ≠ [] ∧
        (v1 ≤ 2147483647 → ∀ r ∈ (main W argv).runs, r.n = v1) ∧
        (v1 ≤ 2147483647 → (∀ cfg i, W.spawnOk cfg i = true) →
          (main W argv).runs.map (fun r => r.t) = all_t)) ∧
    (argv.length ≠ 3 →
        (main W argv).generated = some 100000000 ∧
        (main W argv).runs ≠ [] ∧
        (∀ r ∈ (main W argv).runs, r.n = 100000000) ∧
        ((∀ cfg i, W.spawnOk cfg i = true) →
          (main W argv).runs.map (fun r => r.t) = all_t)) := by
  have hne : ∀ n t, parseArgs argv = .ok (n, t) → (main W argv).runs ≠ [] := by
    intro n t hp he
    have := main_runs_head W argv n t hp
    rw [he] at this
    simp at this
  constructor
  · intro p a1 a2 v1 v2 hargv h1 h2 hv
    subst hargv
    have hr1 := stol_range a1 v1 h1
    have hp : parseArgs [p, a1, a2] = .ok (toUInt64 v1, toUInt64 v2) := by
      simp only [parseArgs, h1, h2]
    have hu : toUInt64 v1 = v1.toNat := by
      unfold toUInt64
      unfold LONG_MAX LONG_MIN at hr1
      omega
    refine ⟨?_, hne _ _ hp, ?_, ?_⟩
    · rw [main_of_parse_ok W _ _ _ hp, hu]
    · intro hsmall r hr
      obtain ⟨k, tt, _, rfl⟩ := main_runs_mem W _ _ _ hp r hr
      rw [(experiment_t W k k _ tt _).2, hu]
      unfold toInt32
      omega
    · intro hsmall hok
      exact main_runs_t W _ _ _ hp (by rw [hu]; omega) (fun cfg => Or.inr (hok cfg))
  · intro hlen
    have hp : parseArgs argv = .ok (N, T) := by
      unfold parseArgs
      split
      · simp at hlen
      · rfl
    refine ⟨?_, hne _ _ hp, ?_, ?_⟩
    · rw [main_of_parse_ok W _ _ _ hp]; rfl
    · intro r hr
      obtain ⟨k, tt, _, rfl⟩ := main_runs_mem W _ _ _ hp r hr
      rw [(experiment_t W k k _ tt _).2]
      decide
    · intro hok
      exact main_runs_t W _ _ _ hp (by decide) (fun cfg => Or.inr (hok cfg))

/-- C7 (amended), witness: `prog 1000 4` generates 1000 keys, `prog` alone 100,000,000. -/
theorem record_count_argument_witness :
    (main idealWorld ["prog", "1000", "4"]).generated = some 1000 ∧
    (main idealWorld ["prog"]).generated = some 100000000 :=
  ⟨((record_count_argument idealWorld ["prog", "1000", "4"]).1 "prog" "1000" "4" 1000 4 rfl rfl rfl
      (by decide)).1,
   ((record_count_argument idealWorld ["prog"]).2 (by decide)).1⟩

/-! ## Arguments that are not numerals (C5) -/

/-- C5, counterexample: `prog 12abc 1` is not rejected, it runs to the end with 12 keys
(the numeric prefix of `12abc`); and the lone non-numeric argument of `prog abc` is never
parsed, the run proceeds with the defaults. -/
theorem non_numeral_arguments_are_accepted :
    (main idealWorld ["prog", "12abc", "1"]).generated = some 12 ∧
    (main idealWorld ["prog", "12abc", "1"]).exit = .returned 0 ∧
    (main idealWorld ["prog", "abc"]).generated = some 100000000 ∧
    (main idealWorld ["prog", "abc"]).exit = .returned 0 :=
  ⟨by rw [main_clean idealWorld ["prog", "12abc", "1"] 12 1 rfl (by decide)
      (fun _ => Or.inr (fun _ => rfl))],
   by rw [main_clean idealWorld ["prog", "12abc", "1"] 12 1 rfl (by decide)
      (fun _ => Or.inr (fun _ => rfl))],
   by rw [main_clean idealWorld ["prog", "abc"] 100000000 1 rfl (by decide)
      (fun _ => Or.inr (fun _ => rfl))],
   by rw [main_clean idealWorld ["prog", "abc"] 100000000 1 rfl (by decide)
      (fun _ => Or.inr (fun _ => rfl))]⟩

/-- What `std::stol` rejects as `invalid_argument`: strings with no decimal digit right
after the optional leading white space and the optional sign. -/
theorem stol_invalid_argument_iff (s : String) :
    stol s = .error .invalid_argument ↔
      (takeSign (s.toList.dropWhile isspace)).2.takeWhile isdigit = [] := by
  unfold stol
  dsimp only
  by_cases he : ((takeSign (s.toList.dropWhile isspace)).2.takeWhile isdigit).isEmpty = true
  · rw [if_pos he]
    exact ⟨fun _ => List.isEmpty_iff.mp he, fun _ => rfl⟩
  · rw [if_neg he]
    generalize (if (takeSign (s.toList.dropWhile isspace)).1 = true then
      -(digitsValue ((takeSign (s.toList.dropWhile isspace)).2.takeWhile isdigit) : Int)
      else (digitsValue ((takeSign (s.toList.dropWhile isspace)).2.takeWhile isdigit) : Int)) = x
    constructor
    · intro h
      by_cases hx : x < LONG_MIN ∨ LONG_MAX < x
      · rw [if_pos hx] at h
        exact absurd h (by simp)
      · rw [if_neg hx] at h
        exact absurd h (by simp)
    · intro h
      exact absurd (List.isEmpty_iff.mpr h) he

/-- A decimal digit is neither white space nor a sign. -/
theorem takeSign_of_digit (d : Char) (cs : List Char) (hd : isdigit d = true) :
    isspace d = false ∧ takeSign (d :: cs) = (false, d :: cs) := by
  have h48 : 48 ≤ d.toNat ∧ d.toNat ≤ 57 := by
    simpa [isdigit] using hd
  constructor
  · simp only [isspace, Bool.or_eq_false_iff, beq_eq_false_iff_ne, ne_eq,
      Bool.and_eq_false_iff, decide_eq_false_iff_not]
    omega
  · unfold takeSign
    split
    · rename_i rest heq
      injection heq with h1 _
      subst h1
      exact absurd h48 (by decide)
    · rename_i rest heq
      injection heq with h1 _
      subst h1
      exact absurd h48 (by decide)
    · rfl

/-- The longest run of digits at the front of digits followed by something that does
not start with a digit. -/
theorem takeWhile_digits (ds rest : List Char) (hd : ∀ c ∈ ds, isdigit c = true)
    (hrest : ∀ c, rest.head? = some c → isdigit c = false) :
    (ds ++ rest).takeWhile isdigit = ds := by
  induction ds with
  | nil =>
    cases rest with
    | nil => rfl
    | cons r rs =>
      have := hrest r rfl
      rw [List.nil_append, List.takeWhile_cons_of_neg (by simp [this])]
  | cons d ds ih =>
    have h1 := hd d (List.mem_cons_self _ _)
    rw [List.cons_append, List.takeWhile_cons_of_pos h1,
      ih (fun c hc => hd c (List.mem_cons_of_mem _ hc))]

/-- `std::stol` accepts a string that starts with decimal digits, whatever follows them,
with the value of these digits, when it fits a `long`. -/
theorem stol_of_digits_then_text (ds rest : List Char) (hne : ds ≠ [])
    (hd : ∀ c ∈ ds, isdigit c = true) (hrest : ∀ c, rest.head? = some c → isdigit c = false)
    (hv : digitsValue ds ≤ 9223372036854775807) :
    stol (String.mk (ds ++ rest)) = .ok (digitsValue ds : Int) := by
  obtain ⟨d, ds', rfl⟩ : ∃ d ds', ds = d :: ds' := by
    cases ds with
    | nil => exact absurd rfl hne
    | cons d ds' => exact ⟨d, ds', rfl⟩
  have hdig := hd d (List.mem_cons_self _ _)
  obtain ⟨hsp, hsign⟩ := takeSign_of_digit d (ds' ++ rest) hdig
  have hdrop : List.dropWhile isspace (d :: (ds' ++ rest)) = d :: (ds' ++ rest) := by
    rw [List.dropWhile_cons_of_neg (by simp [hsp])]
  have htake : List.takeWhile isdigit (d :: (ds' ++ rest)) = d :: ds' :=
    takeWhile_digits (d :: ds') rest hd hrest
  have hlist : (String.mk (d :: ds' ++ rest)).toList = d :: (ds' ++ rest) := rfl
  have hrange : ¬ ((digitsValue (d :: ds') : Int) < LONG_MIN ∨
      LONG_MAX < (digitsValue (d :: ds') : Int)) := by
    unfold LONG_MIN LONG_MAX
    omega
  unfold stol
  rw [hlist, hdrop, hsign]
  dsimp only
  rw [htake]
  simp [hrange]

/-- C5 (amended): (1) when exactly two positional arguments are given and `std::stol`
rejects the first, or accepts the first and rejects the second, the exception ends the
program before it prints anything, generates data or calls `experiment`; (2) `std::stol`
rejects a string as `invalid_argument` exactly when no decimal digit follows its optional
leading white space and optional sign; (3) a string that starts with decimal digits is
accepted, whatever follows the digits, with their value (when it fits a `long`); (4)
when both arguments are accepted the run is not ended by a parse failure: it prints the
three leading lines and generates as many keys as the first argument says (as a
`uint64_t`); (5) with any other number of arguments nothing is parsed: the run is not
ended by a parse failure and generates 100,000,000 keys. -/
theorem arguments_rejected_or_accepted {V : Type} (W : World V) :
    (∀ (p a1 a2 : String) (e : StolError),
      (stol a1 = .error e ∨ ((∃ v, stol a1 = .ok v) ∧ stol a2 = .error e)) →
      main W [p, a1, a2] =
        { stdout := [], generated := none, runs := [], exit := .terminated e }) ∧
    (∀ s : String, stol s = .error .invalid_argument ↔
      (takeSign (s.toList.dropWhile isspace)).2.takeWhile isdigit = []) ∧
    (∀ (ds rest : List Char), ds ≠ [] → (∀ c ∈ ds, isdigit c = true) →
      (∀ c, rest.head? = some c → isdigit c = false) →
      digitsValue ds ≤ 9223372036854775807 →
      stol (String.mk (ds ++ rest)) = .ok (digitsValue ds : Int)) ∧
    (∀ (p a1 a2 : String) (v1 v2 : Int), stol a1 = .ok v1 → stol a2 = .ok v2 →
      (main W [p, a1, a2]).generated = some (toUInt64 v1) ∧
      (main W [p, a1, a2]).stdout.take 3 =
        ["> Generating data, hold on ...", "> Data generation completed",
         "Number of Records,Number of Threads,Time"] ∧
      ∀ e, (main W [p, a1, a2]).exit ≠ .terminated e) ∧
    (∀ argv : List String, argv.length ≠ 3 →
      (main W argv).generated = some 100000000 ∧
      (main W argv).stdout.take 3 =
        ["> Generating data, hold on ...", "> Data generation completed",
         "Number of Records,Number of Threads,Time"] ∧
      ∀ e, (main W argv).exit ≠ .terminated e) := by
  have hproceeds : ∀ (argv : List String) (n t : Nat), parseArgs argv = .ok (n, t) →
      (main W argv).generated = some n ∧
      (main W argv).stdout.take 3 =
        ["> Generating data, hold on ...", "> Data generation completed",
         "Number of Records,Number of Threads,Time"] ∧
      ∀ e, (main W argv).exit ≠ .terminated e := by
    intro argv n t hp
    rw [main_of_parse_ok W argv n t hp]
    refine ⟨rfl, rfl, fun e => ?_⟩
    dsimp only
    split <;> simp
  refine ⟨?_, stol_invalid_argument_iff, stol_of_digits_then_text, ?_, ?_⟩
  · intro p a1 a2 e h
    apply main_of_parse_error
    rcases h with h | ⟨⟨v, hv⟩, h⟩
    · simp only [parseArgs, h]
    · simp only [parseArgs, hv, h]
  · intro p a1 a2 v1 v2 h1 h2
    exact hproceeds [p, a1, a2] (toUInt64 v1) (toUInt64 v2) (by simp only [parseArgs, h1, h2])
  · intro argv hlen
    have hp : parseArgs argv = .ok (N, T) := by
      unfold parseArgs
      split
      · simp at hlen
      · rfl
    exact hproceeds argv N T hp

/-- C5 (amended), witness: `prog abc 1` ends with `std::invalid_argument` before any
output; `12abc` is accepted as 12. -/
theorem arguments_rejected_or_accepted_witness :
    stol "abc" = .error .invalid_argument ∧
    main idealWorld ["prog", "abc", "1"] =
      { stdout := [], generated := none, runs := [],
        exit := .terminated .invalid_argument } ∧
    stol "12abc" = .ok 12 :=
  ⟨rfl,
   (arguments_rejected_or_accepted idealWorld).1 "prog" "abc" "1" .invalid_argument (Or.inl rfl),
   (arguments_rejected_or_accepted idealWorld).2.2.1 ['1', '2'] ['a', 'b', 'c'] (by decide)
     (by decide) (by decide) (by decide)⟩

/-! ## Standard output (C4) -/

/-- For a record count that fits an `int`, with every spawn succeeding, standard output
is the two progress lines, the header once, and then one line
`recordCount,threadCount,milliseconds` per configuration, in the order of the list. -/
theorem stdout_of_small_record_count {V : Type} (W : World V) (argv : List String)
    (n t : Nat) (hp : parseArgs argv = .ok (n, t)) (hn : n ≤ 2147483647)
    (hok : ∀ cfg i, W.spawnOk cfg i = true) :
    (main W argv).stdout =
      ["> Generating data, hold on ...", "> Data generation completed",
       "Number of Records,Number of Threads,Time"] ++
        (all_t.enumFrom 0).map (fun p => resultLine n p.2 (W.now p.1 1 - W.now p.1 0)) := by
  rw [main_clean W argv n t hp hn (fun cfg => Or.inr (hok cfg))]
  simp only [MainResult.mk.injEq, List.append_cancel_left_eq, List.flatMap, List.map_map]
  have hfun : ∀ p ∈ all_t.enumFrom 0,
      ((fun r : ExperimentResult => r.output) ∘
        fun p : Nat × Int => experiment W p.1 p.1 n p.2 n) p =
      [resultLine n p.2 (W.now p.1 1 - W.now p.1 0)] := by
    intro p hpm
    have hm := List.mem_enumFrom hpm
    have hb := all_t_bounds p.2 (by rw [hm.2.2]; exact List.getElem_mem _)
    simp only [Function.comp]
    rw [experiment_all_ok_int W p.1 p.1 n p.2 n hn (Nat.le_refl n) hb.1 hb.2 (hok p.1)]
  rw [List.map_congr_left hfun]
  generalize all_t.enumFrom 0 = l
  induction l with
  | nil => rfl
  | cons a l ih => simp [List.flatten, ih]

/-- C4, the code at the failing input `prog 4294967296 1`: 4,294,967,296 keys are
generated, and the first field of every result line is 0. -/
theorem result_lines_show_narrowed_record_count :
    (main idealWorld ["prog", "4294967296", "1"]).generated = some 4294967296 ∧
    (main idealWorld ["prog", "4294967296", "1"]).stdout =
      ["> Generating data, hold on ...", "> Data generation completed",
       "Number of Records,Number of Threads,Time",
       "0,1,0", "0,2,0", "0,4,0", "0,5,0", "0,6,0", "0,8,0", "0,10,0", "0,12,0", "0,14,0",
       "0,15,0", "0,16,0", "0,18,0", "0,20,0", "0,32,0", "0,48,0", "0,64,0", "0,96,0",
       "0,128,0"] := by
  decide

/-! ## Narrowing of the record count (C9) -/

/-- `experiment` with `1 ≤ t ≤ 128`, every spawn succeeding, when the chunk size
`(uint64_t)(n / t)` exceeds `INT_MAX`: worker 0 overflows its counter, the behaviour of
the call is that of a worker fault. -/
theorem experiment_of_chunk_overflow {V : Type} (W : World V) (cfg tree : Nat) (n t : Int)
    (size : Nat) (h1 : 1 ≤ t) (h2 : t ≤ 128) (hok : ∀ j, W.spawnOk cfg j = true)
    (hq : 2147483647 < toUInt64 (Int.tdiv n t)) :
    experiment W cfg tree n t size =
      { n := n, t := t, tree := tree,
        threads := (List.range' 0 t.toNat).map
          (fun j => { n := toUInt64 (Int.tdiv n t),
                      data := (j * toUInt64 (Int.tdiv n t)) % 18446744073709551616,
                      tree := tree }),
        spawned := t.toNat, joined := 0, output := [], status := .workerFault } := by
  rw [experiment_spawned W cfg tree n t size h1 h2 (fun j _ => hok j)]
  obtain ⟨m, hm⟩ : ∃ m, t.toNat = m + 1 := ⟨t.toNat - 1, by omega⟩
  have hall : ((List.range' 0 t.toNat).map
      (fun j => ({ n := toUInt64 (Int.tdiv n t),
                   data := (j * toUInt64 (Int.tdiv n t)) % 18446744073709551616,
                   tree := tree } : thread_s))).all (workerDefined W size) = false := by
    rw [hm, List.range'_succ, List.map_cons, List.all_cons,
      workerDefined_of_overflow W size _ hq, Bool.false_and]
  rw [hall]
  rfl

/-- C9, the code at the failing input `prog 2147483648 1`: 2,147,483,648 keys are
generated and the first call of `experiment` receives the record count -2,147,483,648;
its single worker gets a chunk of 18,446,744,071,562,067,968 keys and overflows its
counter, so the behaviour of the process is undefined from the first configuration on.
The call for the configuration with two threads, when it is made, receives the same
record count and hands its workers chunks of 18,446,744,072,635,809,792 keys, the second
of them starting at that offset: the first key index this worker reads is
18,446,744,072,635,809,792, far beyond the generated keys. -/
theorem record_count_narrowing_wraps :
    (main idealWorld ["prog", "2147483648", "1"]).generated = some 2147483648 ∧
    (main idealWorld ["prog", "2147483648", "1"]).runs.map
        (fun r => (r.n, r.t, r.workers, r.status)) =
      [(-2147483648, 1, [{ n := 18446744071562067968, data := 0, tree := 0 }],
        .workerFault)] ∧
    (main idealWorld ["prog", "2147483648", "1"]).exit = .undefined ∧
    toInt32 2147483648 = -2147483648 ∧
    (experiment idealWorld 1 1 (-2147483648) 2 2147483648).workers =
      [{ n := 18446744072635809792, data := 0, tree := 1 },
       { n := 18446744072635809792, data := 18446744072635809792, tree := 1 }] ∧
    (experiment idealWorld 1 1 (-2147483648) 2 2147483648).status = .workerFault ∧
    (thread_insert idealWorld
        { n := 18446744072635809792, data := 18446744072635809792, tree := 1 }).calls.head?.map
          (fun c => c.index) = some 18446744072635809792 := by
  have hn : toInt32 ((2147483648 : Nat) : Int) = -2147483648 := by decide
  have hrun0 := experiment_of_chunk_overflow idealWorld 0 0 (-2147483648) 1 2147483648
    (by decide) (by decide) (fun _ => rfl) (by decide)
  have hrun1 := experiment_of_chunk_overflow idealWorld 1 1 (-2147483648) 2 2147483648
    (by decide) (by decide) (fun _ => rfl) (by decide)
  have hmain := main_of_parse_ok idealWorld ["prog", "2147483648", "1"] 2147483648 1 rfl
  have hruns : runConfigs idealWorld 2147483648 all_t 0 =
      [experiment idealWorld 0 0 (-2147483648) 1 2147483648] := by
    have hc : (experiment idealWorld 0 0 (-2147483648) 1 2147483648).status.continues =
        false := by
      rw [hrun0]; rfl
    simp only [all_t, runConfigs, hn, hc]
    rfl
  rw [hmain, hruns, hrun1, hrun0]
  refine ⟨rfl, by decide, by decide, by decide, by decide, rfl, ?_⟩
  exact insertLoop_first_call idealWorld _ 18446744072635809791 0

end LeisOLC

/-! # Theorems about the tree -/

namespace btreeolc

/-! ## Leaves -/

/-- Leaf: after `insert(k, v)` the lookup of `k` gives `v`, that of any other key is
unchanged. -/
theorem leaf_lookup_insert {K V : Type} [LinearOrder K] (es : LeafNode K V) (k : K) (v : V)
    (k' : K) :
    LeafNode.lookup (LeafNode.insert es k v) k' =
      if k' = k then some v else LeafNode.lookup es k' := by
  induction es with
  | nil =>
    by_cases h : k' = k
    · simp [LeafNode.insert, LeafNode.lookup, h]
    · have h' : ¬ k = k' := fun e => h e.symm
      simp [LeafNode.insert, LeafNode.lookup, h, h']
  | cons e rest ih =>
    obtain ⟨k0, v0⟩ := e
    simp only [LeafNode.insert]
    by_cases h1 : k < k0
    · simp only [h1, if_true, LeafNode.lookup]
      by_cases h : k' = k
      · simp [h]
      · have h' : ¬ k = k' := fun e => h e.symm
        simp [h, h']
    · simp only [h1, if_false]
      by_cases h2 : k = k0
      · simp only [h2, if_true, LeafNode.lookup]
        by_cases h : k' = k0
        · simp [h]
        · have h' : ¬ k0 = k' := fun e => h e.symm
          simp [h, h']
      · simp only [h2, if_false, LeafNode.lookup, ih]
        by_cases h : k' = k
        · have h3 : ¬ k0 = k' := fun e => h2 (by rw [← h, e])
          simp [h, h3, Ne.symm h2]
        · simp [h]

/-- Leaf: an entry after `insert(k, v)` is the new one or was there before. -/
theorem leaf_mem_insert {K V : Type} [LinearOrder K] (es : LeafNode K V) (k : K) (v : V)
    (e : K × V) (he : e ∈ LeafNode.insert es k v) : e = (k, v) ∨ e ∈ es := by
  induction es with
  | nil => simp [LeafNode.insert] at he; exact Or.inl he
  | cons e0 rest ih =>
    obtain ⟨k0, v0⟩ := e0
    simp only [LeafNode.insert] at he
    by_cases h1 : k < k0
    · simp only [h1, if_true, List.mem_cons] at he
      rcases he with he | he | he
      · exact Or.inl he
      · exact Or.inr (by rw [he]; exact List.mem_cons_self _ _)
      · exact Or.inr (List.mem_cons_of_mem _ he)
    · simp only [h1, if_false] at he
      by_cases h2 : k = k0
      · simp only [h2, if_true, List.mem_cons] at he
        rcases he with he | he
        · exact Or.inl (by rw [he, h2])
        · exact Or.inr (List.mem_cons_of_mem _ he)
      · simp only [h2, if_false, List.mem_cons] at he
        rcases he with he | he
        · exact Or.inr (by rw [he]; exact List.mem_cons_self _ _)
        · rcases ih he with h | h
          · exact Or.inl h
          · exact Or.inr (List.mem_cons_of_mem _ h)

/-- Leaf: a strict lower bound of the keys and of `k` is one after `insert(k, v)`. -/
theorem leaf_insert_lower {K V : Type} [LinearOrder K] (es : LeafNode K V) (k : K) (v : V)
    (a : K) (ha : a < k) (h : ∀ e ∈ es, a < e.1) : ∀ e ∈ LeafNode.insert es k v, a < e.1 := by
  intro e he
  rcases leaf_mem_insert es k v e he with h1 | h1
  · rw [h1]; exact ha
  · exact h e h1

/-- Leaf: `insert` keeps the keys strictly increasing. -/
theorem leaf_insert_sorted {K V : Type} [LinearOrder K] (es : LeafNode K V) (k : K) (v : V)
    (h : es.Pairwise (fun a b => a.1 < b.1)) :
    (LeafNode.insert es k v).Pairwise (fun a b => a.1 < b.1) := by
  induction es with
  | nil => simp [LeafNode.insert]
  | cons e0 rest ih =>
    obtain ⟨k0, v0⟩ := e0
    rw [List.pairwise_cons] at h
    simp only [LeafNode.insert]
    by_cases h1 : k < k0
    · simp only [h1, if_true]
      refine List.Pairwise.cons ?_ (List.Pairwise.cons h.1 h.2)
      intro e he
      rcases List.mem_cons.mp he with he | he
      · rw [he]; exact h1
      · exact lt_trans h1 (h.1 e he)
    · simp only [h1, if_false]
      by_cases h2 : k = k0
      · simp only [h2, if_true]
        exact List.Pairwise.cons h.1 h.2
      · simp only [h2, if_false]
        refine List.Pairwise.cons ?_ (ih h.2)
        have hlt : k0 < k := lt_of_le_of_ne (not_lt.mp h1) (Ne.symm h2)
        exact leaf_insert_lower rest k v k0 hlt h.1

/-- Leaf: `insert` of a key of the leaf's range keeps the invariant. -/
theorem leafWF_insert {K V : Type} [LinearOrder K] (lo : WithBot K) (hi : WithTop K)
    (es : LeafNode K V) (k : K) (v : V) (h : LeafWF lo hi es)
    (hlo : lo ≤ (k : WithBot K)) (hhi : (k : WithTop K) < hi) :
    LeafWF lo hi (LeafNode.insert es k v) := by
  refine ⟨leaf_insert_sorted es k v h.1, ?_⟩
  intro e he
  rcases leaf_mem_insert es k v e he with h1 | h1
  · rw [h1]; exact ⟨hlo, hhi⟩
  · exact h.2 e h1

/-- Leaf: a key that no entry has is not found. -/
theorem leaf_lookup_eq_none {K V : Type} [LinearOrder K] (es : LeafNode K V) (k : K)
    (h : ∀ e ∈ es, e.1 ≠ k) : LeafNode.lookup es k = none := by
  induction es with
  | nil => rfl
  | cons e0 rest ih =>
    obtain ⟨k0, v0⟩ := e0
    have h0 : ¬ k0 = k := h (k0, v0) (List.mem_cons_self _ _)
    simp only [LeafNode.lookup, h0, if_false]
    exact ih (fun e he => h e (List.mem_cons_of_mem _ he))

/-- Leaf: the lookup in two runs of entries finds the first match. -/
theorem leaf_lookup_append {K V : Type} [LinearOrder K] (l1 l2 : LeafNode K V) (k : K) :
    LeafNode.lookup (l1 ++ l2) k =
      match LeafNode.lookup l1 k with
      | some v => some v
      | none => LeafNode.lookup l2 k := by
  induction l1 with
  | nil => rfl
  | cons e0 rest ih =>
    obtain ⟨k0, v0⟩ := e0
    simp only [List.cons_append, LeafNode.lookup]
    by_cases h0 : k0 = k
    · simp [h0]
    · simp only [h0, if_false]
      exact ih


/-- Leaf: `split` keeps the invariant in both halves, with the separator between them,
and the lookup on the side of the separator where the key belongs is the lookup before. -/
theorem leaf_split_spec {K V : Type} [LinearOrder K] (lo : WithBot K) (hi : WithTop K)
    (es : LeafNode K V) (h : LeafWF lo hi es) :
    (LeafNode.split es).WFWith LeafWF lo hi ∧
      ∀ k, (LeafNode.split es).lookupWith LeafNode.lookup k = LeafNode.lookup es k := by
  unfold LeafNode.split
  cases hd : es.drop (es.length / 2) with
  | nil => exact ⟨h, fun _ => rfl⟩
  | cons e rest =>
    obtain ⟨s, v⟩ := e
    have hes : es.take (es.length / 2) ++ (s, v) :: rest = es := by
      rw [← hd]; exact List.take_append_drop _ _
    have hsorted := h.1
    rw [← hes, List.pairwise_append] at hsorted
    obtain ⟨hs1, hs2, hs12⟩ := hsorted
    have hlow : ∀ a ∈ es.take (es.length / 2), a.1 < s :=
      fun a ha => hs12 a ha (s, v) (List.mem_cons_self _ _)
    have hup : ∀ b ∈ (s, v) :: rest, s ≤ b.1 := by
      intro b hb
      rcases List.mem_cons.mp hb with hb | hb
      · rw [hb]
      · exact le_of_lt ((List.pairwise_cons.mp hs2).1 b hb)
    have hmem1 : ∀ a ∈ es.take (es.length / 2), a ∈ es := fun a ha => List.mem_of_mem_take ha
    have hmem2 : ∀ b ∈ (s, v) :: rest, b ∈ es := by
      intro b hb; rw [← hd] at hb; exact List.mem_of_mem_drop hb
    have hsb := h.2 (s, v) (hmem2 _ (List.mem_cons_self _ _))
    refine ⟨⟨⟨hs1, ?_⟩, ⟨hs2, ?_⟩, hsb.1, le_of_lt hsb.2⟩, ?_⟩
    · intro a ha
      exact ⟨(h.2 a (hmem1 a ha)).1, WithTop.coe_lt_coe.mpr (hlow a ha)⟩
    · intro b hb
      exact ⟨WithBot.coe_le_coe.mpr (hup b hb), (h.2 b (hmem2 b hb)).2⟩
    · intro k
      simp only [InsertResult.lookupWith]
      conv_rhs => rw [← hes, leaf_lookup_append]
      by_cases hk : k < s
      · simp only [hk, if_true]
        have hnone : LeafNode.lookup ((s, v) :: rest) k = none :=
          leaf_lookup_eq_none _ k (fun b hb => ne_of_gt (lt_of_lt_of_le hk (hup b hb)))
        rw [hnone]
        cases LeafNode.lookup (List.take (es.length / 2) es) k <;> rfl
      · simp only [hk, if_false]
        have hnone : LeafNode.lookup (es.take (es.length / 2)) k = none :=
          leaf_lookup_eq_none _ k
            (fun a ha => ne_of_lt (lt_of_lt_of_le (hlow a ha) (not_lt.mp hk)))
        rw [hnone]

/-! ## Inner nodes: routing -/

/-- A key below the first separator is routed to the first child. -/
theorem route_cons_lt {K V α : Type} [LinearOrder K] (look : α → K → Option V)
    (s : K) (ks : List K) (c : α) (cs : List α) (k : K) (h : k < s) :
    InnerNode.route look (s :: ks) (c :: cs) k = look c k := by
  simp [InnerNode.route, InnerNode.findChildIndex, h]

/-- A key not below the first separator is routed among the other children. -/
theorem route_cons_ge {K V α : Type} [LinearOrder K] (look : α → K → Option V)
    (s : K) (ks : List K) (c : α) (cs : List α) (k : K) (h : ¬ k < s) :
    InnerNode.route look (s :: ks) (c :: cs) k = InnerNode.route look ks cs k := by
  simp [InnerNode.route, InnerNode.findChildIndex, h]

/-- Without separators every key is routed to the first child. -/
theorem route_nil {K V α : Type} [LinearOrder K] (look : α → K → Option V)
    (c : α) (cs : List α) (k : K) :
    InnerNode.route look [] (c :: cs) k = look c k := by
  simp [InnerNode.route, InnerNode.findChildIndex]

/-- Replacing child `i` changes the lookup of exactly the keys routed to `i`. -/
theorem route_set {K V α : Type} [LinearOrder K] (look : α → K → Option V)
    (keys : List K) (children : List α) (i : Nat) (c c' : α) (hc : children[i]? = some c)
    (k : K) :
    InnerNode.route look keys (children.set i c') k =
      if InnerNode.findChildIndex keys k = i then look c' k
      else InnerNode.route look keys children k := by
  unfold InnerNode.route
  have hi : i < children.length := (List.getElem?_eq_some_iff.mp hc).1
  by_cases h : InnerNode.findChildIndex keys k = i
  · simp [h, List.getElem?_set_self, hi]
  · have h' : ¬ i = InnerNode.findChildIndex keys k := fun e => h e.symm
    simp [h, List.getElem?_set_ne h']


/-! ## Inner nodes: descent into the child of a key -/

/-- Inner node: the child a key of the node's range is routed to exists and has a range
that contains the key; replacing it by a subtree of the same range, or by the two halves
of its split around their separator, keeps the invariant, and after the split the keys
routed to that child are routed to the half their side of the separator, all other keys
as before. -/
theorem innerWF_descend {K V α : Type} [LinearOrder K] (P : WithBot K → WithTop K → α → Prop)
    (look : α → K → Option V) (k : K) :
    ∀ (keys : List K) (children : List α) (lo : WithBot K) (hi : WithTop K),
      InnerWF P lo hi keys children → lo ≤ (k : WithBot K) → (k : WithTop K) < hi →
      ∃ (c : α) (a : WithBot K) (b : WithTop K),
        children[InnerNode.findChildIndex keys k]? = some c ∧ P a b c ∧
        a ≤ (k : WithBot K) ∧ (k : WithTop K) < b ∧
        (∀ c', P a b c' →
          InnerWF P lo hi keys (children.set (InnerNode.findChildIndex keys k) c')) ∧
        (∀ (l : α) (s : K) (r : α), P a (s : WithTop K) l → P (s : WithBot K) b r →
          a ≤ (s : WithBot K) → (s : WithTop K) ≤ b →
          InnerWF P lo hi
            (keys.take (InnerNode.findChildIndex keys k) ++
              s :: keys.drop (InnerNode.findChildIndex keys k))
            ((children.set (InnerNode.findChildIndex keys k) l).take
                (InnerNode.findChildIndex keys k + 1) ++
              r :: (children.set (InnerNode.findChildIndex keys k) l).drop
                (InnerNode.findChildIndex keys k + 1)) ∧
          ∀ k2,
            InnerNode.route look
              (keys.take (InnerNode.findChildIndex keys k) ++
                s :: keys.drop (InnerNode.findChildIndex keys k))
              ((children.set (InnerNode.findChildIndex keys k) l).take
                  (InnerNode.findChildIndex keys k + 1) ++
                r :: (children.set (InnerNode.findChildIndex keys k) l).drop
                  (InnerNode.findChildIndex keys k + 1)) k2 =
            if InnerNode.findChildIndex keys k2 = InnerNode.findChildIndex keys k then
              (if k2 < s then look l k2 else look r k2)
            else InnerNode.route look keys children k2) := by
  intro keys
  induction keys with
  | nil =>
    intro children lo hi h hlo hhi
    cases children with
    | nil => simp [InnerWF] at h
    | cons c cs =>
      cases cs with
      | cons c2 cs2 => simp [InnerWF] at h
      | nil =>
        simp only [InnerWF] at h
        refine ⟨c, lo, hi, by simp [InnerNode.findChildIndex], h, hlo, hhi, ?_, ?_⟩
        · intro c' hc'
          simpa [InnerNode.findChildIndex, InnerWF] using hc'
        · intro l s r hl hr has hsb
          refine ⟨?_, ?_⟩
          · simp [InnerNode.findChildIndex, InnerWF, hl, hr, has, hsb]
          · intro k2
            by_cases hk : k2 < s
            · simp [InnerNode.findChildIndex, InnerNode.route, hk]
            · simp [InnerNode.findChildIndex, InnerNode.route, hk]
  | cons s0 ks ih =>
    intro children lo hi h hlo hhi
    cases children with
    | nil => simp [InnerWF] at h
    | cons c0 cs =>
      simp only [InnerWF] at h
      obtain ⟨h1, h2, h3, h4⟩ := h
      by_cases hk : k < s0
      · have hi0 : InnerNode.findChildIndex (s0 :: ks) k = 0 := by
          simp [InnerNode.findChildIndex, hk]
        rw [hi0]
        refine ⟨c0, lo, (s0 : WithTop K), by simp, h3, hlo, WithTop.coe_lt_coe.mpr hk, ?_, ?_⟩
        · intro c' hc'
          simp only [List.set_cons_zero, InnerWF]
          exact ⟨h1, h2, hc', h4⟩
        · intro l s r hl hr has hsb
          have hss0 : s ≤ s0 := WithTop.coe_le_coe.mp hsb
          refine ⟨?_, ?_⟩
          · simp only [List.take_zero, List.drop_zero, List.nil_append, List.set_cons_zero,
              List.take_succ_cons, List.drop_succ_cons, List.cons_append, InnerWF]
            exact ⟨has, le_trans hsb h2, hl, WithBot.coe_le_coe.mpr hss0, h2, hr, h4⟩
          · intro k2
            simp only [List.take_zero, List.drop_zero, List.nil_append, List.set_cons_zero,
              List.take_succ_cons, List.drop_succ_cons, List.cons_append]
            by_cases hk2 : k2 < s
            · have hk20 : k2 < s0 := lt_of_lt_of_le hk2 hss0
              rw [route_cons_lt look _ _ _ _ _ hk2]
              simp [InnerNode.findChildIndex, hk20, hk2]
            · rw [route_cons_ge look _ _ _ _ _ hk2]
              by_cases hk20 : k2 < s0
              · rw [route_cons_lt look _ _ _ _ _ hk20]
                simp [InnerNode.findChildIndex, hk20, hk2]
              · rw [route_cons_ge look _ _ _ _ _ hk20,
                  route_cons_ge look _ _ _ _ _ hk20]
                simp [InnerNode.findChildIndex, hk20]
      · have hi0 : InnerNode.findChildIndex (s0 :: ks) k = InnerNode.findChildIndex ks k + 1 := by
          simp [InnerNode.findChildIndex, hk]
        rw [hi0]
        obtain ⟨c, a, b, hc, hP, hak, hkb, hset, hins⟩ :=
          ih cs (s0 : WithBot K) hi h4 (WithBot.coe_le_coe.mpr (not_lt.mp hk)) hhi
        refine ⟨c, a, b, by simpa using hc, hP, hak, hkb, ?_, ?_⟩
        · intro c' hc'
          simp only [List.set_cons_succ, InnerWF]
          exact ⟨h1, h2, h3, hset c' hc'⟩
        · intro l s r hl hr has hsb
          obtain ⟨hw, hr2⟩ := hins l s r hl hr has hsb
          refine ⟨?_, ?_⟩
          · simp only [List.set_cons_succ, List.take_succ_cons, List.drop_succ_cons,
              List.cons_append, InnerWF]
            exact ⟨h1, h2, h3, hw⟩
          · intro k2
            simp only [List.set_cons_succ, List.take_succ_cons, List.drop_succ_cons,
              List.cons_append]
            by_cases hk20 : k2 < s0
            · rw [route_cons_lt look _ _ _ _ _ hk20,
                route_cons_lt look _ _ _ _ _ hk20]
              simp [InnerNode.findChildIndex, hk20]
            · rw [route_cons_ge look _ _ _ _ _ hk20,
                route_cons_ge look _ _ _ _ _ hk20, hr2 k2]
              simp [InnerNode.findChildIndex, hk20]


/-! ## Inner nodes: split -/

/-- Inner node: cutting the separators at position `mid` gives two nodes that keep the
invariant around the separator at `mid`, and a key is routed in the half on its side. -/
theorem innerWF_split_at {K V α : Type} [LinearOrder K] (P : WithBot K → WithTop K → α → Prop)
    (look : α → K → Option V) (s : K) (rest : List K) :
    ∀ (mid : Nat) (keys : List K) (children : List α) (lo : WithBot K) (hi : WithTop K),
      InnerWF P lo hi keys children → keys.drop mid = s :: rest →
      InnerWF P lo (s : WithTop K) (keys.take mid) (children.take (mid + 1)) ∧
      InnerWF P (s : WithBot K) hi rest (children.drop (mid + 1)) ∧
      lo ≤ (s : WithBot K) ∧ (s : WithTop K) ≤ hi ∧
      ∀ k, InnerNode.route look keys children k =
        if k < s then InnerNode.route look (keys.take mid) (children.take (mid + 1)) k
        else InnerNode.route look rest (children.drop (mid + 1)) k := by
  intro mid
  induction mid with
  | zero =>
    intro keys children lo hi h hd
    simp only [List.drop_zero] at hd
    subst hd
    cases children with
    | nil => simp [InnerWF] at h
    | cons c0 cs =>
      simp only [InnerWF] at h
      obtain ⟨h1, h2, h3, h4⟩ := h
      refine ⟨by simpa [InnerWF] using h3, by simpa using h4, h1, h2, ?_⟩
      intro k
      by_cases hk : k < s
      · simp [route_cons_lt look _ _ _ _ _ hk, hk, route_nil]
      · simp [route_cons_ge look _ _ _ _ _ hk, hk]
  | succ m ih =>
    intro keys children lo hi h hd
    cases keys with
    | nil => simp at hd
    | cons s0 ks =>
      simp only [List.drop_succ_cons] at hd
      cases children with
      | nil => simp [InnerWF] at h
      | cons c0 cs =>
        simp only [InnerWF] at h
        obtain ⟨h1, h2, h3, h4⟩ := h
        obtain ⟨i1, i2, i3, i4, i5⟩ := ih ks cs (s0 : WithBot K) hi h4 hd
        have hs0s : s0 ≤ s := WithBot.coe_le_coe.mp i3
        refine ⟨?_, by simpa using i2, le_trans h1 i3, i4, ?_⟩
        · simp only [List.take_succ_cons, InnerWF]
          exact ⟨h1, WithTop.coe_le_coe.mpr hs0s, h3, i1⟩
        · intro k
          simp only [List.take_succ_cons, List.drop_succ_cons]
          by_cases hk0 : k < s0
          · have hks : k < s := lt_of_lt_of_le hk0 hs0s
            simp [route_cons_lt look _ _ _ _ _ hk0, hks]
          · rw [route_cons_ge look _ _ _ _ _ hk0, i5 k,
              route_cons_ge look _ _ _ _ _ hk0]

/-- Inner node: `split` keeps the invariant in both halves and the lookups. -/
theorem inner_split_spec {K V α : Type} [LinearOrder K]
    (P : WithBot K → WithTop K → α → Prop) (look : α → K → Option V)
    (lo : WithBot K) (hi : WithTop K) (nd : InnerNode K α)
    (h : InnerWF P lo hi nd.keys nd.children) :
    (InnerNode.split nd).WFWith (fun a b n => InnerWF P a b n.keys n.children) lo hi ∧
      ∀ k, (InnerNode.split nd).lookupWith (fun n k => InnerNode.route look n.keys n.children k) k =
        InnerNode.route look nd.keys nd.children k := by
  unfold InnerNode.split
  cases hd : nd.keys.drop (nd.keys.length / 2) with
  | nil => exact ⟨h, fun _ => rfl⟩
  | cons s rest =>
    obtain ⟨i1, i2, i3, i4, i5⟩ :=
      innerWF_split_at P look s rest (nd.keys.length / 2) nd.keys nd.children lo hi h hd
    exact ⟨⟨i1, i2, i3, i4⟩, fun k => (i5 k).symm⟩


/-! ## Insertion into a subtree -/

/-- Insertion of a key of the subtree's range keeps the invariant, also across a split, and
afterwards the lookup of the key gives the value, that of any other key is unchanged. -/
theorem node_insert_spec {K V : Type} [LinearOrder K] (C : Nat) (k : K) (v : V) :
    ∀ (h : Nat) (lo : WithBot K) (hi : WithTop K) (t : Node K V h),
      Node.WF h lo hi t → lo ≤ (k : WithBot K) → (k : WithTop K) < hi →
      (Node.insert C h t k v).WFWith (Node.WF h) lo hi ∧
      ∀ k2, (Node.insert C h t k v).lookupWith (Node.lookup h) k2 =
        if k2 = k then some v else Node.lookup h t k2 := by
  intro h
  induction h with
  | zero =>
    intro lo hi t hwf hlo hhi
    have hwf' : LeafWF lo hi (LeafNode.insert t k v) := leafWF_insert lo hi t k v hwf hlo hhi
    simp only [Node.insert]
    by_cases hfit : (LeafNode.insert t k v).length ≤ C
    · simp only [hfit, if_true]
      exact ⟨hwf', fun k2 => leaf_lookup_insert t k v k2⟩
    · simp only [hfit, if_false]
      obtain ⟨s1, s2⟩ := leaf_split_spec lo hi _ hwf'
      exact ⟨s1, fun k2 => (s2 k2).trans (leaf_lookup_insert t k v k2)⟩
  | succ h ih =>
    intro lo hi t hwf hlo hhi
    obtain ⟨c, a, b, hc, hP, hak, hkb, hset, hins⟩ :=
      innerWF_descend (Node.WF h) (Node.lookup h) k (InnerNode.keys t) (InnerNode.children t)
        lo hi hwf hlo hhi
    obtain ⟨ihwf, ihlook⟩ := ih a b c hP hak hkb
    have hroute_c : ∀ k2, InnerNode.findChildIndex (InnerNode.keys t) k2 =
        InnerNode.findChildIndex (InnerNode.keys t) k →
        InnerNode.route (Node.lookup h) (InnerNode.keys t) (InnerNode.children t) k2 =
          Node.lookup h c k2 := by
      intro k2 hi2
      simp only [InnerNode.route, hi2, hc]
    simp only [Node.insert, hc]
    cases hres : Node.insert C h c k v with
    | fits c' =>
      rw [hres] at ihwf ihlook
      simp only [InsertResult.WFWith, InsertResult.lookupWith] at ihwf ihlook
      refine ⟨hset c' ihwf, ?_⟩
      intro k2
      simp only [InsertResult.lookupWith, Node.lookup]
      rw [route_set (Node.lookup h) _ _ _ c c' hc k2]
      by_cases hk2 : k2 = k
      · subst hk2
        simp [ihlook]
      · have := ihlook k2
        simp only [hk2, if_false] at this
        by_cases hi2 : InnerNode.findChildIndex (InnerNode.keys t) k2 =
            InnerNode.findChildIndex (InnerNode.keys t) k
        · simp only [hi2, if_true, hk2, if_false, this]
          exact (hroute_c k2 hi2).symm
        · simp only [hi2, if_false, hk2]
    | split l s r =>
      rw [hres] at ihwf ihlook
      simp only [InsertResult.WFWith, InsertResult.lookupWith] at ihwf ihlook
      obtain ⟨hl, hr, has, hsb⟩ := ihwf
      obtain ⟨hw, hr2⟩ := hins l s r hl hr has hsb
      have hlook : ∀ k2,
          InnerNode.route (Node.lookup h)
            (InnerNode.insertSeparator
              { keys := InnerNode.keys t,
                children := (InnerNode.children t).set
                  (InnerNode.findChildIndex (InnerNode.keys t) k) l }
              (InnerNode.findChildIndex (InnerNode.keys t) k) s r).keys
            (InnerNode.insertSeparator
              { keys := InnerNode.keys t,
                children := (InnerNode.children t).set
                  (InnerNode.findChildIndex (InnerNode.keys t) k) l }
              (InnerNode.findChildIndex (InnerNode.keys t) k) s r).children k2 =
          if k2 = k then some v else Node.lookup (h + 1) t k2 := by
        intro k2
        simp only [InnerNode.insertSeparator, Node.lookup]
        rw [hr2 k2]
        by_cases hk2 : k2 = k
        · subst hk2
          simpa using ihlook k2
        · have := ihlook k2
          simp only [hk2, if_false] at this
          by_cases hi2 : InnerNode.findChildIndex (InnerNode.keys t) k2 =
              InnerNode.findChildIndex (InnerNode.keys t) k
          · simp only [hi2, if_true, hk2, if_false, this]
            exact (hroute_c k2 hi2).symm
          · simp only [hi2, if_false, hk2]
      have hw' : InnerWF (Node.WF h) lo hi
          (InnerNode.insertSeparator
            { keys := InnerNode.keys t,
              children := (InnerNode.children t).set
                (InnerNode.findChildIndex (InnerNode.keys t) k) l }
            (InnerNode.findChildIndex (InnerNode.keys t) k) s r).keys
          (InnerNode.insertSeparator
            { keys := InnerNode.keys t,
              children := (InnerNode.children t).set
                (InnerNode.findChildIndex (InnerNode.keys t) k) l }
            (InnerNode.findChildIndex (InnerNode.keys t) k) s r).children := by
        simpa only [InnerNode.insertSeparator] using hw
      by_cases hfit : (InnerNode.insertSeparator
            { keys := InnerNode.keys t,
              children := (InnerNode.children t).set
                (InnerNode.findChildIndex (InnerNode.keys t) k) l }
            (InnerNode.findChildIndex (InnerNode.keys t) k) s r).keys.length ≤ C
      · simp only [hfit, if_true]
        exact ⟨hw', hlook⟩
      · simp only [hfit, if_false]
        obtain ⟨s1, s2⟩ := inner_split_spec (Node.WF h) (Node.lookup h) lo hi _ hw'
        exact ⟨s1, fun k2 => by rw [← hlook k2]; exact s2 k2⟩


/-! ## The tree -/

/-- A tree that could be constructed is empty, satisfies the invariant and has capacity
at least 2. -/
theorem tree_empty_spec {K V : Type} [LinearOrder K] (C : Nat) (t0 : BTree K V)
    (h0 : BTree.empty K V C = some t0) : t0.WF ∧ 2 ≤ t0.capacity := by
  unfold BTree.empty at h0
  by_cases hC : C ≤ 1
  · simp [hC] at h0
  · simp only [hC, if_false, Option.some.injEq] at h0
    subst h0
    refine ⟨⟨List.Pairwise.nil, fun e he => ?_⟩, by simp only; omega⟩
    simp at he

/-- `insert` keeps the invariant of the tree, also when the root is split; afterwards the
lookup of the key gives the value, that of any other key is unchanged. -/
theorem tree_insert_spec {K V : Type} [LinearOrder K] (t : BTree K V) (k : K) (v : V)
    (h : t.WF) :
    (t.insert k v).WF ∧
      ∀ k2, (t.insert k v).lookup k2 = if k2 = k then some v else t.lookup k2 := by
  obtain ⟨hw, hl⟩ := node_insert_spec t.capacity k v t.height ⊥ ⊤ t.root h bot_le
    (WithTop.coe_lt_top k)
  unfold BTree.insert
  cases hres : Node.insert t.capacity t.height t.root k v with
  | fits r =>
    rw [hres] at hw hl
    exact ⟨hw, hl⟩
  | split l s r =>
    rw [hres] at hw hl
    simp only [InsertResult.WFWith, InsertResult.lookupWith] at hw hl
    dsimp only
    refine ⟨?_, ?_⟩
    · simp only [BTree.WF, Node.WF, InnerWF]
      exact ⟨hw.2.2.1, hw.2.2.2, hw.1, hw.2.1⟩
    · intro k2
      simp only [BTree.lookup, Node.lookup]
      rw [← hl k2]
      by_cases hk : k2 < s
      · rw [route_cons_lt _ _ _ _ _ _ hk]; simp [hk]
      · rw [route_cons_ge _ _ _ _ _ _ hk, route_nil]; simp [hk]

/-- A sequence of inserts keeps the invariant. -/
theorem tree_insertAll_WF {K V : Type} [LinearOrder K] (ops : List (K × V)) :
    ∀ (t : BTree K V), t.WF → (t.insertAll ops).WF := by
  induction ops with
  | nil => intro t h; exact h
  | cons p rest ih =>
    intro t h
    exact ih (t.insert p.1 p.2) (tree_insert_spec t p.1 p.2 h).1

/-- A value stays retrievable under inserts that do not give its key another value. -/
theorem tree_insertAll_keeps {K V : Type} [LinearOrder K] (k : K) (v : V)
    (ops : List (K × V)) :
    ∀ (t : BTree K V), t.WF → (∀ p ∈ ops, p.1 = k → p.2 = v) → t.lookup k = some v →
      (t.insertAll ops).lookup k = some v := by
  induction ops with
  | nil => intro t _ _ h; exact h
  | cons p rest ih =>
    intro t hwf hops h
    obtain ⟨hw, hl⟩ := tree_insert_spec t p.1 p.2 hwf
    apply ih (t.insert p.1 p.2) hw (fun q hq => hops q (List.mem_cons_of_mem _ hq))
    rw [hl k]
    by_cases hk : k = p.1
    · simp only [hk, if_true]
      rw [hops p (List.mem_cons_self _ _) hk.symm]
    · simp only [hk, if_false]
      exact h

/-- After a sequence of inserts that all store `f key` with the key, every inserted key is
retrievable with `f key`. -/
theorem tree_insertAll_key_as_value {K V : Type} [LinearOrder K] (f : K → V)
    (ops : List (K × V)) :
    ∀ (t : BTree K V), t.WF → (∀ p ∈ ops, p.2 = f p.1) →
      ∀ p ∈ ops, (t.insertAll ops).lookup p.1 = some (f p.1) := by
  induction ops with
  | nil => intro t _ _ p hp; simp at hp
  | cons p0 rest ih =>
    intro t hwf hops p hp
    obtain ⟨hw, hl⟩ := tree_insert_spec t p0.1 p0.2 hwf
    have hrest : ∀ q ∈ rest, q.2 = f q.1 := fun q hq => hops q (List.mem_cons_of_mem _ hq)
    rcases List.mem_cons.mp hp with hp | hp
    · subst hp
      apply tree_insertAll_keeps p.1 (f p.1) rest (t.insert p.1 p.2) hw
      · intro q hq hqk
        rw [hrest q hq, hqk]
      · rw [hl p.1, if_pos rfl, hops p (List.mem_cons_self _ _)]
    · exact ih (t.insert p0.1 p0.2) hw hrest p hp

end btreeolc

namespace LeisOLC

open btreeolc

/-! ## Read-after-write on the tree the workers fill (C8) -/

/-- The scenario of the specification: with capacity 4, inserting 1, 2, 3, 4 leaves the
root a leaf, the fifth insert splits it: the root becomes an inner node over two leaves;
`lookup(3)` returns the value inserted with 3. -/
theorem scenario_capacity_four :
    (BTree.empty Nat Nat 4).map
        (fun t => (t.insertAll [(1, 10), (2, 20), (3, 30), (4, 40)]).height) = some 0 ∧
    (BTree.empty Nat Nat 4).map
        (fun t => (t.insertAll [(1, 10), (2, 20), (3, 30), (4, 40), (5, 50)]).height) = some 1 ∧
    (BTree.empty Nat Nat 4).map
        (fun t => (t.insertAll [(1, 10), (2, 20), (3, 30), (4, 40), (5, 50)]).lookup 3) =
      some (some 30) := by
  decide

/-- C8: on a tree built from the empty tree (capacity at least 2) by any sequence of
inserts, once `insert(k, v)` has returned, `lookup(k)` returns `v`, and it still does
after any further inserts that do not give `k` another value.  In particular, in any
history of insert calls that all store the key as the value (as every call of every
worker does) and that contains the calls of a worker whose chunk has at most `2^31 - 1`
keys, every key of that chunk is retrievable with its key-as-value. -/
theorem lookup_after_insert {K V : Type} [LinearOrder K] (C : Nat) (t0 : BTree K V)
    (h0 : BTree.empty K V C = some t0) (before : List (K × V)) (k : K) (v : V) :
    ((t0.insertAll before).insert k v).lookup k = some v ∧
    (∀ after : List (K × V), (∀ p ∈ after, p.1 = k → p.2 = v) →
      (((t0.insertAll before).insert k v).insertAll after).lookup k = some v) ∧
    (∀ (W : World V) (s0 : BTree Nat V), BTree.empty Nat V C = some s0 →
      ∀ (td : thread_s), td.n ≤ 2147483647 →
      ∀ (history : List (InsertCall V)), (∀ c ∈ history, c.value = W.toDouble c.key) →
        (∀ c ∈ (thread_insert W td).calls, c ∈ history) →
        ∀ j, j < td.n →
          (s0.insertAll (history.map (fun c => (c.key, c.value)))).lookup (W.mem (td.data + j)) =
            some (W.toDouble (W.mem (td.data + j)))) := by
  have hwf0 := (tree_empty_spec C t0 h0).1
  have hwf1 := tree_insertAll_WF before t0 hwf0
  obtain ⟨hwf2, hl⟩ := tree_insert_spec (t0.insertAll before) k v hwf1
  have hself : ((t0.insertAll before).insert k v).lookup k = some v := by
    rw [hl k, if_pos rfl]
  refine ⟨hself, ?_, ?_⟩
  · intro after hafter
    exact tree_insertAll_keeps k v after _ hwf2 hafter hself
  · intro W s0 hs0 td htd history hval hsub j hj
    have hcalls : (thread_insert W td).calls =
        (List.range' 0 td.n).map
          (fun j => { tree := td.tree, index := td.data + j, key := W.mem (td.data + j),
                      value := W.toDouble (W.mem (td.data + j)) }) := by
      unfold thread_insert
      rw [insertLoop_eq W td td.n 0 (by omega)]
    have hmem : InsertCall.mk td.tree (td.data + j) (W.mem (td.data + j))
        (W.toDouble (W.mem (td.data + j))) ∈ history := by
      apply hsub
      rw [hcalls, List.mem_map]
      exact ⟨j, by simp [List.mem_range'_1, hj], rfl⟩
    have hops : ∀ p ∈ history.map (fun c => (c.key, c.value)), p.2 = W.toDouble p.1 := by
      intro p hp
      rw [List.mem_map] at hp
      obtain ⟨c, hc, rfl⟩ := hp
      exact hval c hc
    have := tree_insertAll_key_as_value W.toDouble _ s0 (tree_empty_spec C s0 hs0).1 hops
      (W.mem (td.data + j), W.toDouble (W.mem (td.data + j)))
      (List.mem_map.mpr ⟨_, hmem, rfl⟩)
    exact this

/-- C8, witness: capacity 4; the fifth insert (which splits the root) is read back, and
after the worker of the chunk of three keys at offset 5 has run, key 6 is retrievable
with value 6. -/
theorem lookup_after_insert_witness :
    BTree.empty Nat Nat 4 = some { capacity := 4, height := 0, root := ([] : LeafNode Nat Nat) } ∧
    (((({ capacity := 4, height := 0, root := ([] : LeafNode Nat Nat) } : BTree Nat Nat).insertAll
        [(1, 10), (2, 20), (3, 30), (4, 40)]).insert 5 50).lookup 5) = some 50 ∧
    (({ capacity := 4, height := 0, root := ([] : LeafNode Nat Nat) } : BTree Nat Nat).insertAll
        ((thread_insert idealWorld { n := 3, data := 5, tree := 0 }).calls.map
          (fun c => (c.key, c.value)))).lookup (idealWorld.mem (5 + 1)) =
      some (idealWorld.toDouble (idealWorld.mem (5 + 1))) :=
  ⟨rfl,
   (lookup_after_insert 4 _ rfl [(1, 10), (2, 20), (3, 30), (4, 40)] 5 50).1,
   (lookup_after_insert 4 _ rfl [(1, 10), (2, 20), (3, 30), (4, 40)] 5 50).2.2 idealWorld _ rfl
      { n := 3, data := 5, tree := 0 } (by decide)
      (thread_insert idealWorld { n := 3, data := 5, tree := 0 }).calls
      (by decide) (fun _ h => h) 1 (by decide)⟩

end LeisOLC
